import Mathlib

/-!
Verification of the Corten-MediaEngine core against its specification.

Shallow embedding of the Rust sources:
* `components/media_session/src/state.rs` (session state machine),
* `components/media_session/src/session.rs`, `manager.rs` (set_state / transition_state),
* `components/media_engine/src/engine.rs` (facade play / pause / seek),
* `components/media_pipeline/src/sync.rs` (A/V sync controller),
* `components/buffer_manager/src/ring.rs`, `cache.rs`, `manager.rs`,
* `components/webrtc_integration/src/rtp.rs`, `jitter_buffer.rs`.

`std::time::Duration` is modelled as a nanosecond count (`Nat`); Rust `f32`
payload fields that no verified operation computes with (progress, rate) are
modelled as `Rat`; machine integers (`u16`, `u32`) are modelled as `Nat`
together with explicit `% 2 ^ 16` / `% 2 ^ 32` where the code wraps.
-/

/-- `cortenbrowser_shared_types::SessionState` (errors.rs lines 9-26): the
payload-free state *kind* used inside error values. -/
inductive SessionStateKind where
  | Idle
  | Loading
  | Ready
  | Playing
  | Paused
  | Seeking
  | Ended
  | Error
  deriving DecidableEq, Repr

/-- `cortenbrowser_shared_types::MediaSource` (media.rs lines 236-285); runtime
handles (channel receivers, peer connections, devices) are modelled as `Nat`
identifiers since no verified operation inspects them. -/
inductive MediaSource where
  | Url (url : String)
  | Buffer (data : List Nat) (mime_type : String)
  | Stream (receiver : Nat) (mime_type : String)
  | MSE (source_buffers : List Nat)
  | WebRTC (peer_connection : Nat) (track_id : String)
  | Capture (device : Nat) (constraints : Nat)
  deriving DecidableEq, Repr

/-- `cortenbrowser_shared_types::MediaError` (errors.rs): the error kinds the
verified operations mention, with human-readable details as strings. -/
inductive MediaError where
  | UnsupportedFormat (format : String)
  | CodecError (details : String)
  | NetworkError (details : String)
  | DrmError (details : String)
  | HardwareError (details : String)
  | OutOfMemory
  | InvalidStateTransition (src : SessionStateKind) (dst : SessionStateKind)
  | InvalidParameter (details : String)
  | SessionNotFound (id : Nat)
  | ResourceExhausted (details : String)
  | NotImplemented (feature : String)
  | InvalidState (details : String)
  deriving DecidableEq, Repr

/-- `cortenbrowser_media_session::MediaMetadata` (state.rs lines 7-21). -/
structure MediaMetadata where
  title : Option String
  artist : Option String
  album : Option String
  duration : Nat
  video_track_count : Nat
  audio_track_count : Nat
  deriving DecidableEq, Repr

/-- `cortenbrowser_media_session::SessionState` (state.rs lines 52-102): the
rich per-session state carrying payloads. -/
inductive SessionState where
  | Idle
  | Loading (source : MediaSource) (progress : Rat)
  | Ready (duration : Nat) (metadata : MediaMetadata)
  | Playing (position : Nat) (rate : Rat)
  | Paused (position : Nat)
  | Seeking (target : Nat)
  | Ended
  | Error (error : MediaError)
  deriving DecidableEq, Repr

/-- `SessionState::can_transition_to` (state.rs lines 130-163), translated
match arm by match arm. -/
def SessionState.can_transition_to (s new_state : SessionState) : Bool :=
  match s, new_state with
  | _, .Error _ => true
  | .Idle, .Loading _ _ => true
  | .Loading _ _, .Ready _ _ => true
  | .Ready _ _, .Playing _ _ => true
  | .Ready _ _, .Paused _ => true
  | .Playing _ _, .Paused _ => true
  | .Playing _ _, .Seeking _ => true
  | .Playing _ _, .Ended => true
  | .Paused _, .Playing _ _ => true
  | .Paused _, .Seeking _ => true
  | .Seeking _, .Playing _ _ => true
  | .Seeking _, .Paused _ => true
  | _, _ => false

/-- `impl From<SessionState> for cortenbrowser_shared_types::SessionState`
(state.rs lines 215-228): the kind of a state. -/
def SessionState.kind : SessionState → SessionStateKind
  | .Idle => .Idle
  | .Loading _ _ => .Loading
  | .Ready _ _ => .Ready
  | .Playing _ _ => .Playing
  | .Paused _ => .Paused
  | .Seeking _ => .Seeking
  | .Ended => .Ended
  | .Error _ => .Error

/-- The validation-and-store core of `SessionManager::transition_state`
(manager.rs lines 44-65), restricted to one session's state: on success the
new state is stored, otherwise `InvalidStateTransition{from, to}` is
returned and the state is unchanged. -/
def transitionState (current new_state : SessionState) :
    Except MediaError SessionState :=
  if ¬ current.can_transition_to new_state then
    .error (.InvalidStateTransition current.kind new_state.kind)
  else
    .ok new_state

/-- Modelled from the spec: the legal-transition table of §3, as the list of
legal `(from, to)` kind pairs (every kind may move to `Error`; plus
Idle→Loading, Loading→Ready, Ready→Playing|Paused, Playing→Paused|Seeking|
Ended, Paused→Playing|Seeking, Seeking→Playing|Paused). -/
def specLegalPairs : List (SessionStateKind × SessionStateKind) :=
  [(.Idle, .Error), (.Loading, .Error), (.Ready, .Error), (.Playing, .Error),
   (.Paused, .Error), (.Seeking, .Error), (.Ended, .Error), (.Error, .Error),
   (.Idle, .Loading),
   (.Loading, .Ready),
   (.Ready, .Playing), (.Ready, .Paused),
   (.Playing, .Paused), (.Playing, .Seeking), (.Playing, .Ended),
   (.Paused, .Playing), (.Paused, .Seeking),
   (.Seeking, .Playing), (.Seeking, .Paused)]

/-- Kind-level transition legality: helper recomputing
`can_transition_to` from the two kinds alone. -/
def kindLegal (a b : SessionStateKind) : Bool :=
  match a, b with
  | _, .Error => true
  | .Idle, .Loading => true
  | .Loading, .Ready => true
  | .Ready, .Playing => true
  | .Ready, .Paused => true
  | .Playing, .Paused => true
  | .Playing, .Seeking => true
  | .Playing, .Ended => true
  | .Paused, .Playing => true
  | .Paused, .Seeking => true
  | .Seeking, .Playing => true
  | .Seeking, .Paused => true
  | _, _ => false

/-- `MediaSession::set_state` (session.rs lines 40-43): unconditionally
overwrites the stored state, with no validation. -/
def MediaSession.set_state (_current new_state : SessionState) : SessionState :=
  new_state

/-- `MediaSession::get_state` (session.rs lines 35-37): reads the stored
state back. -/
def MediaSession.get_state (stored : SessionState) : SessionState :=
  stored

/-- The session-state effect of `MediaEngineImpl::play` (engine.rs lines
182-212): stores `Playing{position: 0, rate: 1.0}` via `set_state`. -/
def enginePlay (current : SessionState) : SessionState :=
  MediaSession.set_state current (.Playing 0 1)

/-- The session-state effect of `MediaEngineImpl::pause` (engine.rs lines
214-243): stores `Paused{position}` via `set_state`, with the position
hard-coded to zero (the pipeline query is a TODO in the source). -/
def enginePause (current : SessionState) : SessionState :=
  MediaSession.set_state current (.Paused 0)

/-- The succession of session states stored by `MediaEngineImpl::seek`
(engine.rs lines 245-286): first `Seeking{target}`, then unconditionally
`Playing{position, rate: 1.0}`. -/
def engineSeek (current : SessionState) (position : Nat) :
    List SessionState :=
  let s1 := MediaSession.set_state current (.Seeking position)
  let s2 := MediaSession.set_state s1 (.Playing position 1)
  [s1, s2]

/-- `cortenbrowser_shared_types::PixelFormat` (formats.rs). -/
inductive PixelFormat where
  | YUV420
  | YUV422
  | YUV444
  | RGB24
  | RGBA32
  deriving DecidableEq, Repr

/-- `cortenbrowser_shared_types::FrameMetadata` (media.rs lines 13-22). -/
structure FrameMetadata where
  is_keyframe : Bool
  pts : Option Int
  dts : Option Int
  sequence : Option Nat
  deriving DecidableEq, Repr

/-- `cortenbrowser_shared_types::VideoFrame` (media.rs lines 43-58). -/
structure VideoFrame where
  width : Nat
  height : Nat
  format : PixelFormat
  data : List Nat
  timestamp : Nat
  duration : Option Nat
  metadata : FrameMetadata
  deriving DecidableEq, Repr

/-- `cortenbrowser_media_pipeline::SyncDecision` (types.rs lines 28-38). -/
inductive SyncDecision where
  | Display
  | Drop
  | Wait (duration : Nat)
  deriving DecidableEq, Repr

/-- Default synchronization threshold, 40 ms (sync.rs line 12). -/
def DEFAULT_SYNC_THRESHOLD : Nat := 40000000

/-- `cortenbrowser_media_pipeline::AVSyncController` (sync.rs lines 42-48). -/
structure AVSyncController where
  clock : Nat
  threshold : Nat
  deriving DecidableEq, Repr

/-- `AVSyncController::new` (sync.rs lines 60-65): clock starts at zero. -/
def AVSyncController.new : AVSyncController :=
  { clock := 0, threshold := DEFAULT_SYNC_THRESHOLD }

/-- `AVSyncController::update_clock` (sync.rs lines 153-158). -/
def AVSyncController.update_clock (c : AVSyncController) (timestamp : Nat) :
    AVSyncController :=
  if timestamp > c.clock then { c with clock := timestamp } else c

/-- `AVSyncController::sync_frame` (sync.rs lines 103-131); the interior
mutation of the clock is made explicit by returning the updated controller. -/
def AVSyncController.sync_frame (c : AVSyncController) (video_frame : VideoFrame)
    (audio_timestamp : Nat) : SyncDecision × AVSyncController :=
  let video_timestamp := video_frame.timestamp
  if video_timestamp ≥ audio_timestamp then
    let diff := video_timestamp - audio_timestamp
    if diff ≤ c.threshold then
      (.Display, c.update_clock video_timestamp)
    else
      (.Wait diff, c)
  else
    let behind_by := audio_timestamp - video_timestamp
    if behind_by > c.threshold then
      (.Drop, c)
    else
      (.Display, c)

/-- Folding `sync_frame` over a list of (video frame, audio timestamp)
inputs: the controller after a sequence of decisions. -/
def runSync (c : AVSyncController) : List (VideoFrame × Nat) → AVSyncController
  | [] => c
  | (f, ta) :: rest => runSync (c.sync_frame f ta).2 rest

/-- `RTPPacket` (rtp.rs lines 26-36); `u16`/`u32` fields as `Nat` with the
bounds carried as hypotheses where they matter. -/
structure RTPPacket where
  payload : List Nat
  sequence_number : Nat
  timestamp : Nat
  ssrc : Nat
  deriving DecidableEq, Repr

/-- `u16::to_be_bytes` for a sequence number (big-endian byte pair). -/
def be16 (n : Nat) : List Nat :=
  [n / 256 % 256, n % 256]

/-- `u32::to_be_bytes` (big-endian byte quadruple). -/
def be32 (n : Nat) : List Nat :=
  [n / 16777216 % 256, n / 65536 % 256, n / 256 % 256, n % 256]

/-- `RTPPacket::to_bytes` (rtp.rs lines 61-84): `0x80`, `0x00`, sequence BE,
timestamp BE, ssrc BE, then the payload. -/
def RTPPacket.to_bytes (p : RTPPacket) : List Nat :=
  [0x80, 0x00] ++ be16 p.sequence_number ++ be32 p.timestamp ++
    be32 p.ssrc ++ p.payload

/-- Big-endian reassembly of a byte list, for stating round-trips. -/
def readBE (bytes : List Nat) : Nat :=
  bytes.foldl (fun acc b => acc * 256 + b) 0

/-- The concrete packet of the serialization example (the packet used by the
repository's own `test_rtp_packet_to_bytes`). -/
def examplePacket : RTPPacket :=
  { payload := [170, 187, 204], sequence_number := 42,
    timestamp := 9000, ssrc := 3735928559 }

/-- `RTP_MTU` (rtp.rs line 8). -/
def RTP_MTU : Nat := 1200

/-- `RTPPacketizer` (rtp.rs lines 102-105): the `Cell<u16>` sequence counter
is modelled as a plain field. -/
structure RTPPacketizer where
  sequence_number : Nat
  ssrc : Nat
  deriving DecidableEq, Repr

/-- The fragmentation loop of `RTPPacketizer::packetize` (rtp.rs lines
158-186), as recursion on the remaining payload: chunk off at most
`RTP_MTU` bytes, emit a packet with the current sequence number, and
continue with the sequence number incremented mod `2^16`. -/
def packetizeLoop (seq ssrc ts : Nat) (payload : List Nat) : List RTPPacket :=
  if payload = [] then []
  else
    { payload := payload.take RTP_MTU, sequence_number := seq,
      timestamp := ts, ssrc := ssrc } ::
      packetizeLoop ((seq + 1) % 65536) ssrc ts (payload.drop RTP_MTU)
  termination_by payload.length
  decreasing_by
    simp only [List.length_drop, RTP_MTU]
    have : payload.length ≠ 0 := by
      simpa [List.length_eq_zero] using by assumption
    omega

/-- `RTPPacketizer::packetize` (rtp.rs lines 158-186). -/
def RTPPacketizer.packetize (pz : RTPPacketizer) (payload : List Nat)
    (ts : Nat) : List RTPPacket :=
  packetizeLoop pz.sequence_number pz.ssrc ts payload

/-- The wrapping sequence numbers emitted starting from `seq`. -/
def seqsFrom (seq : Nat) : Nat → List Nat
  | 0 => []
  | n + 1 => seq :: seqsFrom ((seq + 1) % 65536) n

/-- `cortenbrowser_buffer_manager::BufferError` (error.rs lines 7-23). -/
inductive BufferError where
  | OutOfMemory
  | BufferFull
  | BufferEmpty
  | InvalidSize (details : String)
  deriving DecidableEq, Repr

/-- `RingBuffer` (ring.rs lines 29-36). -/
structure RingBuffer where
  buffer : List Nat
  capacity : Nat
  read_pos : Nat
  write_pos : Nat
  count : Nat
  deriving DecidableEq, Repr

/-- `RingBuffer::new` (ring.rs lines 54-62). -/
def RingBuffer.new (capacity : Nat) : RingBuffer :=
  { buffer := List.replicate capacity 0, capacity := capacity,
    read_pos := 0, write_pos := 0, count := 0 }

/-- The byte-copy loop of `RingBuffer::write` (ring.rs lines 99-102): store
each byte at `write_pos` and advance `write_pos` modulo the capacity.
Returns the updated backing buffer and write position. -/
def writeLoop (data : List Nat) (buf : List Nat) (pos cap : Nat) :
    List Nat × Nat :=
  match data with
  | [] => (buf, pos)
  | b :: rest => writeLoop rest (buf.set pos b) ((pos + 1) % cap) cap

/-- `RingBuffer::write` (ring.rs lines 87-106). -/
def RingBuffer.write (rb : RingBuffer) (data : List Nat) :
    Except BufferError (Nat × RingBuffer) :=
  if data = [] then .ok (0, rb)
  else
    let available_space := rb.capacity - rb.count
    if available_space = 0 then .error .BufferFull
    else
      let to_write := min data.length available_space
      let step := writeLoop (data.take to_write) rb.buffer rb.write_pos
        rb.capacity
      .ok (to_write,
        { rb with buffer := step.1, write_pos := step.2,
                  count := rb.count + to_write })

/-- The byte-copy loop of `RingBuffer::read` (ring.rs lines 141-144): take
`n` bytes starting at `read_pos`, advancing modulo the capacity. Returns
the bytes read and the final read position. -/
def readLoop (n : Nat) (buf : List Nat) (pos cap : Nat) : List Nat × Nat :=
  match n with
  | 0 => ([], pos)
  | m + 1 =>
    let step := readLoop m buf ((pos + 1) % cap) cap
    (buf.getD pos 0 :: step.1, step.2)

/-- `RingBuffer::read` (ring.rs lines 134-148), returning the bytes that the
code copies into the caller's buffer. -/
def RingBuffer.read (rb : RingBuffer) (len : Nat) :
    Except BufferError (List Nat × RingBuffer) :=
  if rb.count = 0 then .error .BufferEmpty
  else
    let to_read := min len rb.count
    let step := readLoop to_read rb.buffer rb.read_pos rb.capacity
    .ok (step.1,
      { rb with read_pos := step.2, count := rb.count - to_read })

/-- `RingBuffer::available` (ring.rs lines 163-165). -/
def RingBuffer.available (rb : RingBuffer) : Nat :=
  rb.count

/-- The abstract FIFO content of a ring buffer: the `count` unread bytes
starting at `read_pos`, in order. -/
def RingBuffer.contents (rb : RingBuffer) : List Nat :=
  (List.range rb.count).map
    (fun i => rb.buffer.getD ((rb.read_pos + i) % rb.capacity) 0)

/-- Well-formedness of a ring buffer: the backing store has exactly
`capacity` bytes, at most `capacity` bytes are unread, and (for a non-zero
capacity) both positions are in range with `write_pos` sitting `count`
bytes past `read_pos` modulo the capacity. -/
def RingBuffer.wf (rb : RingBuffer) : Prop :=
  rb.buffer.length = rb.capacity ∧ rb.count ≤ rb.capacity ∧
  (rb.capacity = 0 ∨
    (rb.read_pos < rb.capacity ∧ rb.write_pos < rb.capacity ∧
     rb.write_pos = (rb.read_pos + rb.count) % rb.capacity))

/-- One facade operation on a ring buffer. -/
inductive RingOp where
  | write (data : List Nat)
  | read (len : Nat)
  deriving DecidableEq, Repr

/-- Run a sequence of operations against a ring buffer, collecting the
concatenation of the bytes accepted by `write` and of the bytes returned
by `read` (failed calls accept and return nothing). -/
def runRing (rb : RingBuffer) : List RingOp → List Nat × List Nat × RingBuffer
  | [] => ([], [], rb)
  | .write data :: ops =>
    match rb.write data with
    | .ok res =>
      let rest := runRing res.2 ops
      (data.take res.1 ++ rest.1, rest.2.1, rest.2.2)
    | .error _ => runRing rb ops
  | .read len :: ops =>
    match rb.read len with
    | .ok res =>
      let rest := runRing res.2 ops
      (rest.1, res.1 ++ rest.2.1, rest.2.2)
    | .error _ => runRing rb ops

/-- Scenario S5 midpoint: capacity-10 ring after writing `"12345"`,
reading 5 bytes, and writing `"ABCDEFGH"`. -/
def s5Mid : RingBuffer :=
  (runRing (RingBuffer.new 10)
    [.write [49, 50, 51, 52, 53], .read 5,
     .write [65, 66, 67, 68, 69, 70, 71, 72]]).2.2

/-- Scenario S5 final step: the 8-byte read. -/
def s5Final : Except BufferError (List Nat × RingBuffer) :=
  s5Mid.read 8

/-- `cortenbrowser_buffer_manager::BufferConfig` (config.rs lines 4-12). -/
structure BufferConfig where
  max_memory : Nat
  max_video_frames : Nat
  max_audio_buffers : Nat
  deriving DecidableEq, Repr

/-- `VideoFrameBuffer` (manager.rs lines 10-16). -/
structure VideoFrameBuffer where
  data : List Nat
  size : Nat
  deriving DecidableEq, Repr

/-- `AudioSampleBuffer` (manager.rs lines 21-27); `f32` samples as `Rat`. -/
structure AudioSampleBuffer where
  samples : List Rat
  count : Nat
  deriving DecidableEq, Repr

/-- `BufferManager` (manager.rs lines 44-48). -/
structure BufferManager where
  config : BufferConfig
  current_memory : Nat
  deriving DecidableEq, Repr

/-- `BufferManager::new` (manager.rs lines 65-70). -/
def BufferManager.new (config : BufferConfig) : BufferManager :=
  { config := config, current_memory := 0 }

/-- `BufferManager::allocate_video_buffer` (manager.rs lines 93-104). -/
def BufferManager.allocate_video_buffer (m : BufferManager) (size : Nat) :
    Except BufferError (VideoFrameBuffer × BufferManager) :=
  if m.current_memory + size > m.config.max_memory then
    .error .OutOfMemory
  else
    .ok ({ data := List.replicate size 0, size := size },
      { m with current_memory := m.current_memory + size })

/-- `BufferManager::allocate_audio_buffer` (manager.rs lines 127-140):
`size = samples * size_of::<f32>() = samples * 4`. -/
def BufferManager.allocate_audio_buffer (m : BufferManager) (samples : Nat) :
    Except BufferError (AudioSampleBuffer × BufferManager) :=
  if m.current_memory + samples * 4 > m.config.max_memory then
    .error .OutOfMemory
  else
    .ok ({ samples := List.replicate samples 0, count := samples },
      { m with current_memory := m.current_memory + samples * 4 })

/-- `BufferManager::get_memory_usage` (manager.rs lines 157-159). -/
def BufferManager.get_memory_usage (m : BufferManager) : Nat :=
  m.current_memory

/-- One allocation-related event. `dropBuffer` is dropping a previously
returned buffer: in the source neither `VideoFrameBuffer` nor
`AudioSampleBuffer` has a `Drop` impl and `cleanup` frees nothing
(manager.rs lines 176-180), so a drop runs no code that touches the
manager. -/
inductive AllocOp where
  | allocVideo (size : Nat)
  | allocAudio (samples : Nat)
  | dropBuffer
  deriving DecidableEq, Repr

/-- Run a sequence of allocation events against the manager (a failed
allocation returns its error and leaves the manager as the code leaves
it). -/
def runAlloc (m : BufferManager) : List AllocOp → BufferManager
  | [] => m
  | .allocVideo s :: ops =>
    match m.allocate_video_buffer s with
    | .ok res => runAlloc res.2 ops
    | .error _ => runAlloc m ops
  | .allocAudio s :: ops =>
    match m.allocate_audio_buffer s with
    | .ok res => runAlloc res.2 ops
    | .error _ => runAlloc m ops
  | .dropBuffer :: ops => runAlloc m ops

/-- Association-list model of `HashMap` lookup. -/
def alLookup {β : Type} (k : Nat) : List (Nat × β) → Option β
  | [] => none
  | e :: rest => if e.1 = k then some e.2 else alLookup k rest

/-- Association-list model of `HashMap::contains_key`. -/
def alContains {β : Type} (k : Nat) (l : List (Nat × β)) : Bool :=
  (alLookup k l).isSome

/-- Association-list model of `HashMap::remove` (first occurrence). -/
def alErase {β : Type} (k : Nat) : List (Nat × β) → List (Nat × β)
  | [] => []
  | e :: rest => if e.1 = k then rest else e :: alErase k rest

/-- `JitterBuffer` (jitter_buffer.rs lines 32-36): the `HashMap<u16,
RTPPacket>` is modelled as an association list keyed by sequence number. -/
structure JitterBuffer where
  capacity : Nat
  packets : List (Nat × RTPPacket)
  next_expected_seq : Option Nat
  deriving DecidableEq, Repr

/-- `JitterBuffer::new` (jitter_buffer.rs lines 54-60). -/
def JitterBuffer.new (capacity : Nat) : JitterBuffer :=
  { capacity := capacity, packets := [], next_expected_seq := none }

/-- `JitterBuffer::sequence_before` (jitter_buffer.rs lines 183-187):
`b.wrapping_sub(a)` on `u16` is `(b + 2^16 - a) % 2^16` for in-range
values. -/
def sequence_before (a b : Nat) : Bool :=
  let diff := (b + 65536 - a) % 65536
  decide (0 < diff) && decide (diff < 32768)

/-- `JitterBuffer::insert` (jitter_buffer.rs lines 104-130): reject when at
capacity and the sequence is new; keep the first packet on duplicates;
pull `next_expected_seq` back when the new sequence precedes it. -/
def JitterBuffer.insert (jb : JitterBuffer) (packet : RTPPacket) :
    Except MediaError JitterBuffer :=
  if jb.packets.length ≥ jb.capacity ∧
      alContains packet.sequence_number jb.packets = false then
    .error .OutOfMemory
  else
    .ok { jb with
      packets :=
        if alContains packet.sequence_number jb.packets then jb.packets
        else jb.packets ++ [(packet.sequence_number, packet)],
      next_expected_seq :=
        match jb.next_expected_seq with
        | none => some packet.sequence_number
        | some expected =>
          if sequence_before packet.sequence_number expected then
            some packet.sequence_number
          else some expected }

/-- `JitterBuffer::get_next` (jitter_buffer.rs lines 169-179): the interior
mutation is made explicit by returning the updated buffer. -/
def JitterBuffer.get_next (jb : JitterBuffer) :
    Option RTPPacket × JitterBuffer :=
  match jb.next_expected_seq with
  | some expected =>
    match alLookup expected jb.packets with
    | some packet =>
      (some packet,
       { jb with packets := alErase expected jb.packets,
                 next_expected_seq := some ((expected + 1) % 65536) })
    | none => (none, jb)
  | none => (none, jb)

/-- Insert a list of packets in order, stopping at the first error. -/
def insertAllJB (jb : JitterBuffer) :
    List RTPPacket → Except MediaError JitterBuffer
  | [] => .ok jb
  | p :: ps =>
    match jb.insert p with
    | .ok jb2 => insertAllJB jb2 ps
    | .error e => .error e

/-- Call `get_next` `n` times, collecting the packets returned. -/
def drainJB (jb : JitterBuffer) : Nat → List RTPPacket
  | 0 => []
  | n + 1 =>
    match jb.get_next with
    | (some p, jb2) => p :: drainJB jb2 n
    | (none, jb2) => drainJB jb2 n

/-- The modular offset of sequence `s` from base `b` (u16 arithmetic). -/
def offB (b s : Nat) : Nat :=
  (s + 65536 - b) % 65536

/-- The two packets of the gap counterexample: sequences 0 and 2 with the
intermediate sequence 1 missing. -/
def gapPacket0 : RTPPacket :=
  { payload := [0], sequence_number := 0, timestamp := 1000, ssrc := 1 }

/-- Second packet of the gap counterexample (sequence 2). -/
def gapPacket2 : RTPPacket :=
  { payload := [2], sequence_number := 2, timestamp := 1200, ssrc := 1 }

/-- Fresh capacity-10 jitter buffer holding the two gap packets. -/
def gapBuffer : Except MediaError JitterBuffer :=
  insertAllJB (JitterBuffer.new 10) [gapPacket0, gapPacket2]

/-- The three wraparound packets of scenario S4, in insertion order
`[65535, 1, 0]`. -/
def wrapPackets : List RTPPacket :=
  [{ payload := [255, 255], sequence_number := 65535, timestamp := 1000,
     ssrc := 12345 },
   { payload := [0, 1], sequence_number := 1, timestamp := 1200,
     ssrc := 12345 },
   { payload := [0, 0], sequence_number := 0, timestamp := 1100,
     ssrc := 12345 }]

/-- Association-list model of `HashMap::insert`: replace in place when the
key is present, append otherwise. -/
def alInsert {β : Type} (k : Nat) (v : β) : List (Nat × β) → List (Nat × β)
  | [] => [(k, v)]
  | e :: rest => if e.1 = k then (k, v) :: rest else e :: alInsert k v rest

/-- `CacheEntry` (cache.rs lines 11-15). -/
structure CacheEntry where
  frame : VideoFrame
  access_count : Nat
  deriving DecidableEq, Repr

/-- `FrameCache` (cache.rs lines 45-50): the `HashMap<Duration, CacheEntry>`
is modelled as an association list keyed by the timestamp. -/
structure FrameCache where
  frames : List (Nat × CacheEntry)
  max_frames : Nat
  access_counter : Nat
  deriving DecidableEq, Repr

/-- `FrameCache::new` (cache.rs lines 66-72). -/
def FrameCache.new (max_frames : Nat) : FrameCache :=
  { frames := [], max_frames := max_frames, access_counter := 0 }

/-- `iter().min_by_key(|(_, entry)| entry.access_count)` (cache.rs lines
116-117): the first entry with the smallest access counter. -/
def minByAccess : List (Nat × CacheEntry) → Option (Nat × CacheEntry)
  | [] => none
  | e :: rest =>
    match minByAccess rest with
    | none => some e
    | some m => if e.2.access_count ≤ m.2.access_count then some e else some m

/-- `FrameCache::insert` (cache.rs lines 106-130): `OutOfMemory` when
`max_frames == 0`; when at capacity and the timestamp is new, remove the
entry with the smallest access counter; then bump the monotonic counter and
insert or overwrite at the frame's timestamp. -/
def FrameCache.insert (c : FrameCache) (frame : VideoFrame) :
    Except BufferError FrameCache :=
  if c.max_frames = 0 then .error .OutOfMemory
  else if c.frames.length ≥ c.max_frames ∧
      alContains frame.timestamp c.frames = false then
    match minByAccess c.frames with
    | some lru =>
      .ok { frames := alInsert frame.timestamp
              ⟨frame, c.access_counter + 1⟩ (alErase lru.1 c.frames),
            max_frames := c.max_frames,
            access_counter := c.access_counter + 1 }
    | none =>
      .ok { frames := alInsert frame.timestamp
              ⟨frame, c.access_counter + 1⟩ c.frames,
            max_frames := c.max_frames,
            access_counter := c.access_counter + 1 }
  else
    .ok { frames := alInsert frame.timestamp
            ⟨frame, c.access_counter + 1⟩ c.frames,
          max_frames := c.max_frames,
          access_counter := c.access_counter + 1 }

/-- `FrameCache::get` (cache.rs lines 166-175): on a hit, bump the entry's
access counter to the next value of the monotonic counter and return a
clone of the frame. -/
def FrameCache.get (c : FrameCache) (timestamp : Nat) :
    Option VideoFrame × FrameCache :=
  match alLookup timestamp c.frames with
  | some entry =>
    (some entry.frame,
     { c with
        frames := alInsert timestamp
          ⟨entry.frame, c.access_counter + 1⟩ c.frames,
        access_counter := c.access_counter + 1 })
  | none => (none, c)

/-- Insert a list of frames in order (failed inserts change nothing). -/
def insertFrames (c : FrameCache) : List VideoFrame → FrameCache
  | [] => c
  | f :: fs =>
    match c.insert f with
    | .ok c2 => insertFrames c2 fs
    | .error _ => insertFrames c fs

/-- Perform a `get` for each timestamp in the list, in order. -/
def getFrames (c : FrameCache) : List Nat → FrameCache
  | [] => c
  | t :: ts => getFrames (c.get t).2 ts

/-- The cache entries produced by filling an empty cache: counters
`c0+1, c0+2, …` in insertion order. -/
def fillEntries (c0 : Nat) : List VideoFrame → List (Nat × CacheEntry)
  | [] => []
  | f :: rest => (f.timestamp, ⟨f, c0 + 1⟩) :: fillEntries (c0 + 1) rest

/-- A small test frame with the given timestamp, for concrete scenarios. -/
def wFrame (t : Nat) : VideoFrame :=
  { width := 2, height := 2, format := .YUV420, data := [0, 0, 0, 0, 0, 0],
    timestamp := t, duration := none,
    metadata := { is_keyframe := false, pts := none, dts := none,
                  sequence := none } }

/-- The cache obtained by filling a fresh cache of capacity `k` with the
frames `fs`: entries `fillEntries 0 fs` and counter `fs.length`. -/
def fillCache (k : Nat) (fs : List VideoFrame) : FrameCache :=
  { frames := fillEntries 0 fs, max_frames := k,
    access_counter := fs.length }

theorem can_transition_to_eq_kindLegal (s t : SessionState) :
    s.can_transition_to t = kindLegal s.kind t.kind := by
  cases s <;> cases t <;> rfl

theorem kindLegal_iff_mem (a b : SessionStateKind) :
    kindLegal a b = true ↔ (a, b) ∈ specLegalPairs := by
  cases a <;> cases b <;> decide

theorem sync_frame_clock_mono (c : AVSyncController) (f : VideoFrame)
    (ta : Nat) : c.clock ≤ (c.sync_frame f ta).2.clock := by
  simp only [AVSyncController.sync_frame, AVSyncController.update_clock]
  split_ifs <;> simp <;> omega

theorem runSync_clock_mono (c : AVSyncController)
    (inputs : List (VideoFrame × Nat)) :
    c.clock ≤ (runSync c inputs).clock := by
  induction inputs generalizing c with
  | nil => simp [runSync]
  | cons p rest ih =>
    obtain ⟨f, ta⟩ := p
    calc c.clock ≤ (c.sync_frame f ta).2.clock := sync_frame_clock_mono c f ta
      _ ≤ (runSync (c.sync_frame f ta).2 rest).clock := ih _
      _ = (runSync c ((f, ta) :: rest)).clock := rfl

/-- C1: the session state-machine transition check succeeds exactly for the
legal pairs of state kinds of the §3 table; for every other ordered pair it
fails with `InvalidStateTransition{from, to}`; and legality depends only on
the kinds of the two states, never on their payloads. -/
theorem c1_transition_table_exact :
    (∀ s t : SessionState,
        s.can_transition_to t = true ↔ (s.kind, t.kind) ∈ specLegalPairs) ∧
    (∀ s t s' t' : SessionState, s.kind = s'.kind → t.kind = t'.kind →
        s.can_transition_to t = s'.can_transition_to t') ∧
    (∀ s t : SessionState, s.can_transition_to t = false →
        transitionState s t = .error (.InvalidStateTransition s.kind t.kind)) := by
  refine ⟨fun s t => ?_, fun s t s' t' h1 h2 => ?_, fun s t h => ?_⟩
  · rw [can_transition_to_eq_kindLegal]
    exact kindLegal_iff_mem s.kind t.kind
  · rw [can_transition_to_eq_kindLegal, can_transition_to_eq_kindLegal, h1, h2]
  · simp [transitionState, h]

theorem c1_transition_table_exact_witness :
    (SessionState.Idle.can_transition_to (.Playing 5 1) =
      SessionState.Idle.can_transition_to (.Playing 7 2)) ∧
    transitionState .Idle (.Playing 5 1) =
      .error (.InvalidStateTransition .Idle .Playing) :=
  ⟨c1_transition_table_exact.2.1 .Idle (.Playing 5 1) .Idle (.Playing 7 2) rfl rfl,
   c1_transition_table_exact.2.2 .Idle (.Playing 5 1) (by decide)⟩

/-- C2: the sync controller displays a frame whose timestamp is within the
threshold of the audio timestamp, waits `t_v − t_a` when video is ahead by
more than the threshold, drops when behind by more than the threshold; the
clock starts at zero, is non-decreasing over any sequence of decisions, and
on a Display with `t_v ≥ t_a` becomes `max(clock, t_v)`. -/
theorem c2_sync_controller :
    (∀ (c : AVSyncController) (f : VideoFrame) (ta : Nat),
        f.timestamp - ta ≤ c.threshold → ta - f.timestamp ≤ c.threshold →
          (c.sync_frame f ta).1 = .Display) ∧
    (∀ (c : AVSyncController) (f : VideoFrame) (ta : Nat),
        c.threshold < f.timestamp - ta →
          (c.sync_frame f ta).1 = .Wait (f.timestamp - ta)) ∧
    (∀ (c : AVSyncController) (f : VideoFrame) (ta : Nat),
        c.threshold < ta - f.timestamp →
          (c.sync_frame f ta).1 = .Drop) ∧
    AVSyncController.new.clock = 0 ∧
    (∀ (c : AVSyncController) (inputs : List (VideoFrame × Nat)),
        c.clock ≤ (runSync c inputs).clock) ∧
    (∀ (c : AVSyncController) (f : VideoFrame) (ta : Nat),
        ta ≤ f.timestamp → (c.sync_frame f ta).1 = .Display →
          (c.sync_frame f ta).2.clock = max c.clock f.timestamp) := by
  refine ⟨fun c f ta h1 h2 => ?_, fun c f ta h => ?_, fun c f ta h => ?_, rfl,
    runSync_clock_mono, fun c f ta hle hd => ?_⟩
  · simp only [AVSyncController.sync_frame]
    split_ifs <;> first | rfl | omega
  · simp only [AVSyncController.sync_frame]
    split_ifs <;> first | rfl | omega
  · simp only [AVSyncController.sync_frame]
    split_ifs <;> first | rfl | omega
  · simp only [AVSyncController.sync_frame, AVSyncController.update_clock]
      at hd ⊢
    split_ifs at hd ⊢ <;> simp_all <;> omega

theorem c2_sync_controller_witness :
    ((AVSyncController.new.sync_frame
        { width := 1920, height := 1080, format := .YUV420, data := [],
          timestamp := 1000000000, duration := none,
          metadata := { is_keyframe := true, pts := none, dts := none,
                        sequence := none } } 1000000000).1 = .Display) ∧
    ((AVSyncController.new.sync_frame
        { width := 1920, height := 1080, format := .YUV420, data := [],
          timestamp := 1050000000, duration := none,
          metadata := { is_keyframe := true, pts := none, dts := none,
                        sequence := none } } 1000000000).1 =
      .Wait (1050000000 - 1000000000)) ∧
    ((AVSyncController.new.sync_frame
        { width := 1920, height := 1080, format := .YUV420, data := [],
          timestamp := 900000000, duration := none,
          metadata := { is_keyframe := true, pts := none, dts := none,
                        sequence := none } } 1000000000).1 = .Drop) ∧
    ((AVSyncController.new.sync_frame
        { width := 1920, height := 1080, format := .YUV420, data := [],
          timestamp := 1000000000, duration := none,
          metadata := { is_keyframe := true, pts := none, dts := none,
                        sequence := none } } 1000000000).2.clock =
      max AVSyncController.new.clock 1000000000) :=
  ⟨c2_sync_controller.1 _ _ _ (by decide) (by decide),
   c2_sync_controller.2.1 _ _ _ (by decide),
   c2_sync_controller.2.2.1 _ _ _ (by decide),
   c2_sync_controller.2.2.2.2.2 _ _ _ (by decide)
     (c2_sync_controller.1 _ _ _ (by decide) (by decide))⟩

/-- C6 (code evaluated at the failing input): a `seek(10)` issued while the
session is `Paused{5}` stores `Seeking{10}` and then unconditionally
`Playing{position: 10, rate: 1.0}` — it does not return the session to
`Paused{10}` as the specification requires. -/
theorem c6_seek_during_paused_ends_playing :
    engineSeek (.Paused 5) 10 = [.Seeking 10, .Playing 10 1] ∧
    (engineSeek (.Paused 5) 10).getLast? = some (.Playing 10 1) ∧
    SessionState.Playing 10 1 ≠ SessionState.Paused 10 := by
  refine ⟨rfl, rfl, by decide⟩

/-- C10: `MediaSession::set_state` always succeeds and a subsequent
`get_state` returns the stored state, with no validation against the
legal-transition table (validation exists only in
`SessionManager::transition_state`); the engine facade's play, pause and
seek call `set_state` directly, so play stores `Playing{position: 0,
rate: 1.0}` from any current state, including `Idle`. -/
theorem c10_set_state_unvalidated :
    (∀ current new_state : SessionState,
        MediaSession.get_state (MediaSession.set_state current new_state) =
          new_state) ∧
    (∀ current new_state : SessionState,
        current.can_transition_to new_state = false →
          MediaSession.set_state current new_state = new_state ∧
          transitionState current new_state =
            .error (.InvalidStateTransition current.kind new_state.kind)) ∧
    (∀ current : SessionState, enginePlay current = .Playing 0 1) ∧
    enginePlay .Idle = .Playing 0 1 ∧
    (∀ current : SessionState, enginePause current = .Paused 0) ∧
    (∀ (current : SessionState) (pos : Nat),
        engineSeek current pos = [.Seeking pos, .Playing pos 1]) :=
  ⟨fun _ _ => rfl,
   fun _ _ h => ⟨rfl, by simp [transitionState, h]⟩,
   fun _ => rfl, rfl, fun _ => rfl, fun _ _ => rfl⟩

theorem c10_set_state_unvalidated_witness :
    MediaSession.set_state .Idle (.Playing 0 1) = .Playing 0 1 ∧
    transitionState .Idle (.Playing 0 1) =
      .error (.InvalidStateTransition .Idle .Playing) :=
  c10_set_state_unvalidated.2.1 .Idle (.Playing 0 1) (by decide)

theorem packetizeLoop_spec (ssrc ts : Nat) :
    ∀ (n : Nat) (payload : List Nat), payload.length ≤ n → ∀ seq : Nat,
      ((packetizeLoop seq ssrc ts payload).map RTPPacket.payload).flatten =
        payload ∧
      (packetizeLoop seq ssrc ts payload).length =
        (payload.length + 1199) / 1200 ∧
      (∀ pkt ∈ packetizeLoop seq ssrc ts payload,
          pkt.payload.length ≤ 1200 ∧ pkt.timestamp = ts ∧ pkt.ssrc = ssrc) ∧
      (packetizeLoop seq ssrc ts payload).map RTPPacket.sequence_number =
        seqsFrom seq (packetizeLoop seq ssrc ts payload).length := by
  intro n
  induction n with
  | zero =>
    intro payload hlen seq
    have hempty : payload = [] := by
      simpa [List.length_eq_zero] using Nat.le_zero.mp hlen
    subst hempty
    rw [packetizeLoop]
    simp [seqsFrom]
  | succ m ih =>
    intro payload hlen seq
    rw [packetizeLoop]
    by_cases h : payload = []
    · subst h; simp [seqsFrom]
    · have hpos : payload.length ≠ 0 := by
        simpa [List.length_eq_zero] using h
      have hdrop : (payload.drop RTP_MTU).length ≤ m := by
        simp only [List.length_drop, RTP_MTU]; omega
      obtain ⟨ihj, ihl, ihm, ihs⟩ := ih (payload.drop RTP_MTU) hdrop
        ((seq + 1) % 65536)
      refine ⟨?_, ?_, ?_, ?_⟩
      · simp only [if_neg h, List.map_cons, List.flatten_cons, ihj]
        exact List.take_append_drop RTP_MTU payload
      · simp only [if_neg h, List.length_cons, ihl]
        simp only [List.length_drop, RTP_MTU]
        omega
      · simp only [if_neg h, List.mem_cons]
        rintro pkt (rfl | hmem)
        · refine ⟨?_, rfl, rfl⟩
          simpa [RTP_MTU] using List.length_take_le 1200 payload
        · exact ihm pkt hmem
      · simp only [if_neg h, List.map_cons, List.length_cons, seqsFrom, ihs]

theorem seqsFrom_eq_range (n : Nat) :
    ∀ seq : Nat, seq < 65536 →
      seqsFrom seq n = (List.range n).map (fun i => (seq + i) % 65536) := by
  induction n with
  | zero => intro seq _; simp [seqsFrom]
  | succ m ih =>
    intro seq hseq
    rw [List.range_succ_eq_map]
    simp only [seqsFrom, List.map_cons, List.map_map]
    rw [ih _ (Nat.mod_lt _ (by omega))]
    refine List.cons_eq_cons.mpr ⟨by omega, ?_⟩
    refine List.map_congr_left fun i _ => ?_
    simp only [Function.comp_apply]
    omega

/-- C5: for every payload of length `L > 0` and every timestamp, `packetize`
produces exactly `ceil(L / 1200)` packets: the payload splits in order into
chunks of at most 1200 bytes, every packet carries the same timestamp and
the packetizer's constant ssrc, sequence numbers are consecutive modulo
`2^16` starting from the current `next_seq`, the concatenation of the
packets' payloads equals the input, and an empty payload yields `[]`. -/
theorem c5_packetize_fragmentation :
    ∀ (pz : RTPPacketizer) (payload : List Nat) (ts : Nat),
      pz.sequence_number < 65536 →
      (pz.packetize payload ts).length = (payload.length + 1199) / 1200 ∧
      (payload = [] → pz.packetize payload ts = []) ∧
      ((pz.packetize payload ts).map RTPPacket.payload).flatten = payload ∧
      (∀ pkt ∈ pz.packetize payload ts,
          pkt.payload.length ≤ 1200 ∧ pkt.timestamp = ts ∧
          pkt.ssrc = pz.ssrc) ∧
      (pz.packetize payload ts).map RTPPacket.sequence_number =
        (List.range (pz.packetize payload ts).length).map
          (fun i => (pz.sequence_number + i) % 65536) := by
  intro pz payload ts hseq
  obtain ⟨hj, hl, hm, hs⟩ :=
    packetizeLoop_spec pz.ssrc ts payload.length payload le_rfl
      pz.sequence_number
  refine ⟨hl, fun he => ?_, hj, hm, ?_⟩
  · subst he
    unfold RTPPacketizer.packetize
    rw [packetizeLoop]
    simp
  · unfold RTPPacketizer.packetize
    rw [hs, seqsFrom_eq_range _ _ hseq]

theorem c5_packetize_fragmentation_witness :
    (RTPPacketizer.packetize { sequence_number := 65535, ssrc := 7 }
        [1, 2, 3] 9).length = (([1, 2, 3] : List Nat).length + 1199) / 1200 ∧
    (([1, 2, 3] : List Nat) = [] →
      RTPPacketizer.packetize { sequence_number := 65535, ssrc := 7 }
        [1, 2, 3] 9 = []) ∧
    ((RTPPacketizer.packetize { sequence_number := 65535, ssrc := 7 }
        [1, 2, 3] 9).map RTPPacket.payload).flatten = [1, 2, 3] ∧
    (∀ pkt ∈ RTPPacketizer.packetize { sequence_number := 65535, ssrc := 7 }
        [1, 2, 3] 9,
        pkt.payload.length ≤ 1200 ∧ pkt.timestamp = 9 ∧
        pkt.ssrc = RTPPacketizer.ssrc { sequence_number := 65535, ssrc := 7 }) ∧
    (RTPPacketizer.packetize { sequence_number := 65535, ssrc := 7 }
        [1, 2, 3] 9).map RTPPacket.sequence_number =
      (List.range ((RTPPacketizer.packetize
          { sequence_number := 65535, ssrc := 7 } [1, 2, 3] 9).length)).map
        (fun i => (65535 + i) % 65536) :=
  c5_packetize_fragmentation { sequence_number := 65535, ssrc := 7 }
    [1, 2, 3] 9 (by decide)

/-- C8: `to_bytes` returns exactly `12 + len(payload)` bytes, with byte 0 =
`0x80`, byte 1 = `0x00`, bytes 2-3 the sequence number big-endian, bytes 4-7
the timestamp big-endian, bytes 8-11 the ssrc big-endian, and the payload
from byte 12 on; sequence, timestamp and ssrc round-trip exactly. -/
theorem c8_rtp_to_bytes :
    ∀ p : RTPPacket, p.sequence_number < 65536 → p.timestamp < 4294967296 →
      p.ssrc < 4294967296 →
      p.to_bytes.length = 12 + p.payload.length ∧
      p.to_bytes.take 2 = [0x80, 0x00] ∧
      readBE ((p.to_bytes.drop 2).take 2) = p.sequence_number ∧
      readBE ((p.to_bytes.drop 4).take 4) = p.timestamp ∧
      readBE ((p.to_bytes.drop 8).take 4) = p.ssrc ∧
      p.to_bytes.drop 12 = p.payload := by
  intro p h1 h2 h3
  refine ⟨?_, ?_, ?_, ?_, ?_, ?_⟩ <;>
    simp [RTPPacket.to_bytes, be16, be32, readBE] <;> omega

theorem c8_rtp_to_bytes_witness :
    examplePacket.to_bytes.length = 12 + examplePacket.payload.length ∧
    examplePacket.to_bytes.take 2 = [0x80, 0x00] ∧
    readBE ((examplePacket.to_bytes.drop 2).take 2) =
      examplePacket.sequence_number ∧
    readBE ((examplePacket.to_bytes.drop 4).take 4) =
      examplePacket.timestamp ∧
    readBE ((examplePacket.to_bytes.drop 8).take 4) = examplePacket.ssrc ∧
    examplePacket.to_bytes.drop 12 = examplePacket.payload :=
  c8_rtp_to_bytes examplePacket (by decide) (by decide) (by decide)

theorem add_mod_ne_of_lt (cap pos m : Nat) (hpos : pos < cap) (hm0 : 0 < m)
    (hmc : m < cap) : (pos + m) % cap ≠ pos := by
  intro h
  have hdvd : cap ∣ m := by
    have h1 : pos % cap = (pos + m) % cap := by rw [h, Nat.mod_eq_of_lt hpos]
    have h2 := (Nat.modEq_iff_dvd' (Nat.le_add_right pos m)).mp h1
    simpa using h2
  exact absurd (Nat.le_of_dvd hm0 hdvd) (by omega)

theorem add_mod_inj (cap r a b : Nat) (ha : a < cap) (hb : b < cap)
    (h : (r + a) % cap = (r + b) % cap) : a = b := by
  have h2 : a % cap = b % cap := Nat.ModEq.add_left_cancel' r h
  rwa [Nat.mod_eq_of_lt ha, Nat.mod_eq_of_lt hb] at h2

theorem writeLoop_spec (cap : Nat) :
    ∀ (data buf : List Nat) (pos : Nat), buf.length = cap → pos < cap →
      data.length ≤ cap →
      (writeLoop data buf pos cap).1.length = cap ∧
      (writeLoop data buf pos cap).2 = (pos + data.length) % cap ∧
      (∀ k, k < data.length →
        (writeLoop data buf pos cap).1.getD ((pos + k) % cap) 0 =
          data.getD k 0) ∧
      (∀ j, (∀ k, k < data.length → (pos + k) % cap ≠ j) →
        (writeLoop data buf pos cap).1.getD j 0 = buf.getD j 0) := by
  intro data
  induction data with
  | nil =>
    intro buf pos hlen hpos _
    refine ⟨hlen, by simp [writeLoop, Nat.mod_eq_of_lt hpos],
      by simp, fun j _ => rfl⟩
  | cons b rest ih =>
    intro buf pos hlen hpos hdl
    have hcap : 0 < cap := Nat.lt_of_le_of_lt (Nat.zero_le _) hpos
    have hrl : rest.length + 1 ≤ cap := by
      simpa [List.length_cons] using hdl
    obtain ⟨ihl, ihp, ihw, ihu⟩ := ih (buf.set pos b) ((pos + 1) % cap)
      (by simpa using hlen) (Nat.mod_lt _ hcap) (by omega)
    refine ⟨ihl, ?_, ?_, ?_⟩
    · show (writeLoop rest (buf.set pos b) ((pos + 1) % cap) cap).2 = _
      rw [ihp, Nat.mod_add_mod]
      have he : pos + 1 + rest.length = pos + (b :: rest).length := by
        simp [List.length_cons]; omega
      rw [he]
    · intro k hk
      match k with
      | 0 =>
        show (writeLoop rest (buf.set pos b) ((pos + 1) % cap) cap).1.getD
          ((pos + 0) % cap) 0 = _
        have hp0 : (pos + 0) % cap = pos := by
          simpa using Nat.mod_eq_of_lt hpos
        rw [hp0]
        have huntouched : ∀ k2, k2 < rest.length →
            ((pos + 1) % cap + k2) % cap ≠ pos := by
          intro k2 hk2
          rw [Nat.mod_add_mod]
          have he2 : pos + 1 + k2 = pos + (1 + k2) := by omega
          rw [he2]
          exact add_mod_ne_of_lt cap pos (1 + k2) hpos (by omega) (by omega)
        rw [ihu pos huntouched]
        have hplen : pos < buf.length := by omega
        simp [List.getD, List.getElem?_set, hplen]
      | k2 + 1 =>
        show (writeLoop rest (buf.set pos b) ((pos + 1) % cap) cap).1.getD
          ((pos + (k2 + 1)) % cap) 0 = _
        have hk2 : k2 < rest.length := by
          simp [List.length_cons] at hk; omega
        have hpe : (pos + (k2 + 1)) % cap = ((pos + 1) % cap + k2) % cap := by
          rw [Nat.mod_add_mod]
          have : pos + 1 + k2 = pos + (k2 + 1) := by omega
          rw [this]
        rw [hpe, ihw k2 hk2]
        simp
    · intro j hj
      have hne0 : pos ≠ j := by
        have := hj 0 (by simp)
        simpa [Nat.mod_eq_of_lt hpos] using this
      have huntouched : ∀ k2, k2 < rest.length →
          ((pos + 1) % cap + k2) % cap ≠ j := by
        intro k2 hk2
        rw [Nat.mod_add_mod]
        have he2 : pos + 1 + k2 = pos + (k2 + 1) := by omega
        rw [he2]
        exact hj (k2 + 1) (by simp [List.length_cons]; omega)
      show (writeLoop rest (buf.set pos b) ((pos + 1) % cap) cap).1.getD
        j 0 = _
      rw [ihu j huntouched]
      simp [List.getD, List.getElem?_set, hne0]

theorem readLoop_spec (cap : Nat) (buf : List Nat) :
    ∀ (n pos : Nat), pos < cap →
      (readLoop n buf pos cap).1 =
        (List.range n).map (fun i => buf.getD ((pos + i) % cap) 0) ∧
      (readLoop n buf pos cap).2 = (pos + n) % cap := by
  intro n
  induction n with
  | zero =>
    intro pos hpos
    exact ⟨by simp [readLoop],
      by simp [readLoop, Nat.mod_eq_of_lt hpos]⟩
  | succ m ih =>
    intro pos hpos
    have hcap : 0 < cap := by omega
    obtain ⟨ih1, ih2⟩ := ih ((pos + 1) % cap) (Nat.mod_lt _ hcap)
    constructor
    · show buf.getD pos 0 :: (readLoop m buf ((pos + 1) % cap) cap).1 = _
      rw [List.range_succ_eq_map, List.map_cons, List.map_map, ih1]
      refine List.cons_eq_cons.mpr ⟨?_, ?_⟩
      · simp [Nat.mod_eq_of_lt hpos]
      · refine List.map_congr_left fun i _ => ?_
        simp only [Function.comp_apply]
        rw [Nat.mod_add_mod]
        have : pos + 1 + i = pos + (i + 1) := by omega
        rw [this]
    · show (readLoop m buf ((pos + 1) % cap) cap).2 = _
      rw [ih2, Nat.mod_add_mod]
      have : pos + 1 + m = pos + (m + 1) := by omega
      rw [this]

theorem range_map_getD (l : List Nat) :
    (List.range l.length).map (fun i => l.getD i 0) = l := by
  induction l with
  | nil => simp
  | cons a t ih =>
    rw [List.length_cons, List.range_succ_eq_map, List.map_cons,
      List.map_map]
    refine List.cons_eq_cons.mpr ⟨rfl, ?_⟩
    conv_rhs => rw [← ih]
    refine List.map_congr_left fun i _ => ?_
    simp

theorem RingBuffer.write_spec (rb : RingBuffer) (data : List Nat)
    (hwf : rb.wf) :
    (data = [] → rb.write data = .ok (0, rb)) ∧
    (data ≠ [] → rb.capacity - rb.count = 0 →
      rb.write data = .error .BufferFull) ∧
    (data ≠ [] → rb.capacity - rb.count ≠ 0 →
      ∃ rb2, rb.write data =
          .ok (min data.length (rb.capacity - rb.count), rb2) ∧
        rb2.wf ∧
        rb2.contents = rb.contents ++
          data.take (min data.length (rb.capacity - rb.count))) := by
  obtain ⟨hblen, hcle, hdisj⟩ := hwf
  refine ⟨fun hd => by simp [RingBuffer.write, hd],
    fun hd hfull => by simp [RingBuffer.write, hd, hfull], ?_⟩
  intro hd hfull
  have hcap : 0 < rb.capacity := by omega
  obtain hzero | ⟨hr, hw, hrw⟩ := hdisj
  · omega
  have hn_le_data : min data.length (rb.capacity - rb.count) ≤ data.length :=
    Nat.min_le_left _ _
  have hn_le_avail :
      min data.length (rb.capacity - rb.count) ≤ rb.capacity - rb.count :=
    Nat.min_le_right _ _
  set n := min data.length (rb.capacity - rb.count) with hn
  have htake_len : (data.take n).length = n := by
    rw [List.length_take]
    omega
  have htake_cap : (data.take n).length ≤ rb.capacity := by omega
  obtain ⟨wl_len, wl_pos, wl_new, wl_old⟩ :=
    writeLoop_spec rb.capacity (data.take n) rb.buffer rb.write_pos hblen hw
      htake_cap
  rw [htake_len] at wl_pos wl_new
  refine ⟨{ rb with
      buffer := (writeLoop (data.take n) rb.buffer rb.write_pos
        rb.capacity).1,
      write_pos := (writeLoop (data.take n) rb.buffer rb.write_pos
        rb.capacity).2,
      count := rb.count + n }, ?_, ⟨?_, ?_, ?_⟩, ?_⟩
  · simp only [RingBuffer.write, if_neg hd, if_neg hfull]
  · exact wl_len
  · show rb.count + n ≤ rb.capacity
    omega
  · refine Or.inr ⟨hr, ?_, ?_⟩
    · show (writeLoop (data.take n) rb.buffer rb.write_pos rb.capacity).2 <
        rb.capacity
      rw [wl_pos]
      exact Nat.mod_lt _ hcap
    · show (writeLoop (data.take n) rb.buffer rb.write_pos rb.capacity).2 =
        (rb.read_pos + (rb.count + n)) % rb.capacity
      rw [wl_pos, hrw, Nat.mod_add_mod]
      congr 1
      omega
  · show (List.range (rb.count + n)).map
        (fun j => (writeLoop (data.take n) rb.buffer rb.write_pos
          rb.capacity).1.getD ((rb.read_pos + j) % rb.capacity) 0) =
      rb.contents ++ data.take n
    rw [List.range_add, List.map_append]
    congr 1
    · refine List.map_congr_left fun j hj => ?_
      have hj2 : j < rb.count := List.mem_range.mp hj
      refine wl_old ((rb.read_pos + j) % rb.capacity) ?_
      intro k hk hcontra
      rw [htake_len] at hk
      rw [hrw, Nat.mod_add_mod] at hcontra
      have hkj : rb.count + k = j := by
        refine add_mod_inj rb.capacity rb.read_pos _ _ (by omega) (by omega)
          ?_
        rw [← hcontra]
        congr 1
        omega
      omega
    · conv_rhs => rw [← range_map_getD (data.take n), htake_len]
      rw [List.map_map]
      refine List.map_congr_left fun i hi => ?_
      have hi2 : i < n := List.mem_range.mp hi
      simp only [Function.comp_apply]
      have hpos_eq : (rb.read_pos + (rb.count + i)) % rb.capacity =
          (rb.write_pos + i) % rb.capacity := by
        rw [hrw, Nat.mod_add_mod]
        congr 1
        omega
      rw [hpos_eq]
      exact wl_new i hi2

theorem map_range_drop {α : Type} (f : Nat → α) (c m : Nat) (h : m ≤ c) :
    ((List.range c).map f).drop m =
      (List.range (c - m)).map (fun i => f (m + i)) := by
  conv_lhs => rw [show c = m + (c - m) by omega]
  rw [List.range_add, List.map_append,
    List.drop_append_of_le_length (by simp),
    List.drop_eq_nil_of_le (by simp), List.nil_append, List.map_map]
  rfl

theorem RingBuffer.read_spec (rb : RingBuffer) (len : Nat) (hwf : rb.wf) :
    (rb.count = 0 → rb.read len = .error .BufferEmpty) ∧
    (rb.count ≠ 0 →
      ∃ rb2, rb.read len = .ok (rb.contents.take (min len rb.count), rb2) ∧
        rb2.wf ∧
        rb2.contents = rb.contents.drop (min len rb.count)) := by
  obtain ⟨hblen, hcle, hdisj⟩ := hwf
  refine ⟨fun hc => by simp [RingBuffer.read, hc], ?_⟩
  intro hc
  have hcap : 0 < rb.capacity := by omega
  obtain hzero | ⟨hr, hw, hrw⟩ := hdisj
  · omega
  have hn_le : min len rb.count ≤ rb.count := Nat.min_le_right _ _
  obtain ⟨rl_out, rl_pos⟩ :=
    readLoop_spec rb.capacity rb.buffer (min len rb.count) rb.read_pos hr
  have hout : (readLoop (min len rb.count) rb.buffer rb.read_pos
      rb.capacity).1 = rb.contents.take (min len rb.count) := by
    rw [rl_out, RingBuffer.contents, ← List.map_take, List.take_range]
    have hmin : min (min len rb.count) rb.count = min len rb.count := by
      omega
    rw [hmin]
  refine ⟨{ rb with
      read_pos := (readLoop (min len rb.count) rb.buffer rb.read_pos
        rb.capacity).2,
      count := rb.count - min len rb.count }, ?_, ⟨hblen, ?_, ?_⟩, ?_⟩
  · simp only [RingBuffer.read, if_neg hc]
    rw [hout]
  · show rb.count - min len rb.count ≤ rb.capacity
    omega
  · refine Or.inr ⟨?_, hw, ?_⟩
    · show (readLoop (min len rb.count) rb.buffer rb.read_pos
        rb.capacity).2 < rb.capacity
      rw [rl_pos]
      exact Nat.mod_lt _ hcap
    · show rb.write_pos =
        ((readLoop (min len rb.count) rb.buffer rb.read_pos rb.capacity).2 +
          (rb.count - min len rb.count)) % rb.capacity
      rw [rl_pos, Nat.mod_add_mod, hrw]
      congr 1
      omega
  · show (List.range (rb.count - min len rb.count)).map
        (fun i => rb.buffer.getD
          (((readLoop (min len rb.count) rb.buffer rb.read_pos
            rb.capacity).2 + i) % rb.capacity) 0) =
      rb.contents.drop (min len rb.count)
    rw [rl_pos, RingBuffer.contents,
      map_range_drop _ rb.count (min len rb.count) hn_le]
    refine List.map_congr_left fun i _ => ?_
    have hidx : ((rb.read_pos + min len rb.count) % rb.capacity + i) %
        rb.capacity = (rb.read_pos + (min len rb.count + i)) %
          rb.capacity := by
      rw [Nat.mod_add_mod]
      congr 1
      omega
    rw [hidx]

theorem RingBuffer.new_wf (cap : Nat) : (RingBuffer.new cap).wf := by
  refine ⟨by simp [RingBuffer.new], by simp [RingBuffer.new], ?_⟩
  rcases Nat.eq_zero_or_pos cap with h | h
  · exact Or.inl h
  · exact Or.inr ⟨h, h, by simp [RingBuffer.new]⟩

theorem RingBuffer.new_contents (cap : Nat) :
    (RingBuffer.new cap).contents = [] := by
  simp [RingBuffer.new, RingBuffer.contents]

theorem runRing_spec :
    ∀ (ops : List RingOp) (rb : RingBuffer), rb.wf →
      (runRing rb ops).2.2.wf ∧
      (runRing rb ops).2.1 ++ (runRing rb ops).2.2.contents =
        rb.contents ++ (runRing rb ops).1 := by
  intro ops
  induction ops with
  | nil =>
    intro rb hwf
    exact ⟨hwf, by simp [runRing]⟩
  | cons op rest ih =>
    intro rb hwf
    match op with
    | .write data =>
      by_cases hd : data = []
      · subst hd
        have h1 : rb.write [] = .ok (0, rb) := (rb.write_spec [] hwf).1 rfl
        obtain ⟨ihwf, iheq⟩ := ih rb hwf
        simp only [runRing, h1]
        exact ⟨ihwf, by simpa using iheq⟩
      · by_cases hfull : rb.capacity - rb.count = 0
        · have h1 := (rb.write_spec data hwf).2.1 hd hfull
          simp only [runRing, h1]
          exact ih rb hwf
        · obtain ⟨rb2, heq, hwf2, hcont⟩ :=
            (rb.write_spec data hwf).2.2 hd hfull
          obtain ⟨ihwf, iheq⟩ := ih rb2 hwf2
          simp only [runRing, heq]
          refine ⟨ihwf, ?_⟩
          rw [iheq, hcont, List.append_assoc]
    | .read len =>
      by_cases hc : rb.count = 0
      · have h1 := (rb.read_spec len hwf).1 hc
        simp only [runRing, h1]
        exact ih rb hwf
      · obtain ⟨rb2, heq, hwf2, hcont⟩ := (rb.read_spec len hwf).2 hc
        obtain ⟨ihwf, iheq⟩ := ih rb2 hwf2
        simp only [runRing, heq]
        refine ⟨ihwf, ?_⟩
        rw [List.append_assoc, iheq, hcont, ← List.append_assoc,
          List.take_append_drop]

/-- C4: over every sequence of write and read operations on a ring buffer
started fresh, the bytes returned by `read` followed by the bytes still
unread equal the bytes accepted by `write`; in particular when
`available() = 0` the concatenation of the reads equals, byte for byte, the
concatenation of the accepted writes. The quoted capacity-10 wraparound
cycle (write `"12345"`, read 5, write `"ABCDEFGH"`, read 8) yields
`"ABCDEFGH"` on the final read with `available() = 0`. -/
theorem c4_ring_fifo :
    (∀ (cap : Nat) (ops : List RingOp),
        (runRing (RingBuffer.new cap) ops).2.1 ++
          (runRing (RingBuffer.new cap) ops).2.2.contents =
          (runRing (RingBuffer.new cap) ops).1) ∧
    (∀ (cap : Nat) (ops : List RingOp),
        (runRing (RingBuffer.new cap) ops).2.2.available = 0 →
          (runRing (RingBuffer.new cap) ops).2.1 =
            (runRing (RingBuffer.new cap) ops).1) ∧
    s5Final.map Prod.fst = .ok [65, 66, 67, 68, 69, 70, 71, 72] ∧
    s5Final.map (fun res => res.2.available) = .ok 0 := by
  have hkey : ∀ (cap : Nat) (ops : List RingOp),
      (runRing (RingBuffer.new cap) ops).2.1 ++
        (runRing (RingBuffer.new cap) ops).2.2.contents =
        (runRing (RingBuffer.new cap) ops).1 := by
    intro cap ops
    have h := (runRing_spec ops (RingBuffer.new cap)
      (RingBuffer.new_wf cap)).2
    rwa [RingBuffer.new_contents, List.nil_append] at h
  refine ⟨hkey, ?_, by rfl, by rfl⟩
  intro cap ops hav
  have h := hkey cap ops
  have hcont : (runRing (RingBuffer.new cap) ops).2.2.contents = [] := by
    simp only [RingBuffer.contents]
    have hc0 : (runRing (RingBuffer.new cap) ops).2.2.count = 0 := by
      simpa [RingBuffer.available] using hav
    rw [hc0]
    simp
  rwa [hcont, List.append_nil] at h

theorem c4_ring_fifo_witness :
    (runRing (RingBuffer.new 10)
        [.write [49, 50, 51, 52, 53], .read 5,
         .write [65, 66, 67, 68, 69, 70, 71, 72], .read 8]).2.1 =
      (runRing (RingBuffer.new 10)
        [.write [49, 50, 51, 52, 53], .read 5,
         .write [65, 66, 67, 68, 69, 70, 71, 72], .read 8]).1 :=
  c4_ring_fifo.2.1 10
    [.write [49, 50, 51, 52, 53], .read 5,
     .write [65, 66, 67, 68, 69, 70, 71, 72], .read 8] (by decide)

theorem runAlloc_mono :
    ∀ (ops : List AllocOp) (m : BufferManager),
      m.get_memory_usage ≤ (runAlloc m ops).get_memory_usage ∧
      (runAlloc m ops).config = m.config := by
  intro ops
  induction ops with
  | nil => intro m; exact ⟨le_rfl, rfl⟩
  | cons op rest ih =>
    intro m
    match op with
    | .allocVideo s =>
      by_cases h : m.current_memory + s > m.config.max_memory
      · simp only [runAlloc, BufferManager.allocate_video_buffer, if_pos h]
        exact ih m
      · simp only [runAlloc, BufferManager.allocate_video_buffer, if_neg h]
        obtain ⟨ih1, ih2⟩ := ih
          { m with current_memory := m.current_memory + s }
        refine ⟨?_, ih2⟩
        calc m.get_memory_usage ≤ m.current_memory + s := by
              simp [BufferManager.get_memory_usage]
          _ ≤ _ := ih1
    | .allocAudio s =>
      by_cases h : m.current_memory + s * 4 > m.config.max_memory
      · simp only [runAlloc, BufferManager.allocate_audio_buffer, if_pos h]
        exact ih m
      · simp only [runAlloc, BufferManager.allocate_audio_buffer, if_neg h]
        obtain ⟨ih1, ih2⟩ := ih
          { m with current_memory := m.current_memory + s * 4 }
        refine ⟨?_, ih2⟩
        calc m.get_memory_usage ≤ m.current_memory + s * 4 := by
              simp [BufferManager.get_memory_usage]
          _ ≤ _ := ih1
    | .dropBuffer =>
      simp only [runAlloc]
      exact ih m

theorem runAlloc_bounded :
    ∀ (ops : List AllocOp) (m : BufferManager),
      m.current_memory ≤ m.config.max_memory →
      (runAlloc m ops).current_memory ≤ m.config.max_memory := by
  intro ops
  induction ops with
  | nil => intro m h; exact h
  | cons op rest ih =>
    intro m h
    match op with
    | .allocVideo s =>
      by_cases ho : m.current_memory + s > m.config.max_memory
      · simp only [runAlloc, BufferManager.allocate_video_buffer, if_pos ho]
        exact ih m h
      · simp only [runAlloc, BufferManager.allocate_video_buffer, if_neg ho]
        exact ih { m with current_memory := m.current_memory + s }
          (by simpa using by omega)
    | .allocAudio s =>
      by_cases ho : m.current_memory + s * 4 > m.config.max_memory
      · simp only [runAlloc, BufferManager.allocate_audio_buffer, if_pos ho]
        exact ih m h
      · simp only [runAlloc, BufferManager.allocate_audio_buffer, if_neg ho]
        exact ih { m with current_memory := m.current_memory + s * 4 }
          (by simpa using by omega)
    | .dropBuffer =>
      simp only [runAlloc]
      exact ih m h

/-- C7 (code evaluated at the failing input): allocating 1024 bytes on a
fresh manager with a 2048-byte budget raises the counter to 1024, and
dropping the returned buffer leaves it at 1024 — it never returns to its
prior value 0, because no code path decrements the counter (the counter is
monotone over every operation sequence). The bounded and
denied-allocation-unchanged parts of the claim do hold. -/
theorem c7_memory_counter_never_decremented :
    (runAlloc (BufferManager.new ⟨2048, 10, 10⟩)
      [.allocVideo 1024]).get_memory_usage = 1024 ∧
    (runAlloc (BufferManager.new ⟨2048, 10, 10⟩)
      [.allocVideo 1024, .dropBuffer]).get_memory_usage = 1024 ∧
    (runAlloc (BufferManager.new ⟨2048, 10, 10⟩)
      [.allocVideo 1024, .dropBuffer]).get_memory_usage ≠ 0 ∧
    (∀ (m : BufferManager) (ops : List AllocOp),
        m.get_memory_usage ≤ (runAlloc m ops).get_memory_usage) ∧
    (∀ (m : BufferManager) (size : Nat),
        m.current_memory + size > m.config.max_memory →
          m.allocate_video_buffer size = .error .OutOfMemory) ∧
    (∀ (cfg : BufferConfig) (ops : List AllocOp),
        (runAlloc (BufferManager.new cfg) ops).get_memory_usage ≤
          cfg.max_memory) := by
  refine ⟨by rfl, by rfl, by decide, ?_, ?_, ?_⟩
  · exact fun m ops => (runAlloc_mono ops m).1
  · intro m size h
    unfold BufferManager.allocate_video_buffer
    rw [if_pos h]
  · intro cfg ops
    exact runAlloc_bounded ops (BufferManager.new cfg)
      (by simp [BufferManager.new])

theorem alLookup_none_iff {β : Type} (k : Nat) (l : List (Nat × β)) :
    alLookup k l = none ↔ k ∉ l.map Prod.fst := by
  induction l with
  | nil => simp [alLookup]
  | cons e rest ih =>
    by_cases h : e.1 = k
    · simp [alLookup, h]
    · simp only [alLookup, if_neg h, List.map_cons, List.mem_cons, ih]
      constructor
      · intro hn hmem
        rcases hmem with h1 | h2
        · exact h h1.symm
        · exact hn h2
      · intro hn h2
        exact hn (Or.inr h2)

theorem alLookup_mem {β : Type} (k : Nat) (v : β) :
    ∀ l : List (Nat × β), alLookup k l = some v → (k, v) ∈ l := by
  intro l
  induction l with
  | nil => intro h; simp [alLookup] at h
  | cons e rest ih =>
    obtain ⟨e1, e2⟩ := e
    intro h
    by_cases he : e1 = k
    · subst he
      simp only [alLookup, if_pos rfl] at h
      injection h with hv
      subst hv
      exact List.mem_cons_self _ _
    · simp only [alLookup, if_neg he] at h
      exact List.mem_cons_of_mem _ (ih h)

theorem alLookup_of_mem_keys {β : Type} (k : Nat) (l : List (Nat × β))
    (h : k ∈ l.map Prod.fst) : ∃ v, alLookup k l = some v := by
  rcases ho : alLookup k l with _ | v
  · exact absurd ((alLookup_none_iff k l).mp ho) (by simpa using h)
  · exact ⟨v, rfl⟩

theorem alErase_map_fst {β : Type} (k : Nat) :
    ∀ l : List (Nat × β), (alErase k l).map Prod.fst =
      (l.map Prod.fst).erase k := by
  intro l
  induction l with
  | nil => simp [alErase]
  | cons e rest ih =>
    by_cases h : e.1 = k
    · simp [alErase, h, List.erase_cons_head]
    · rw [show (e :: rest).map Prod.fst = e.1 :: rest.map Prod.fst from rfl,
        List.erase_cons_tail (by simpa using h)]
      simp [alErase, h, ih]

theorem alErase_sublist {β : Type} (k : Nat) :
    ∀ l : List (Nat × β), (alErase k l).Sublist l := by
  intro l
  induction l with
  | nil => simp [alErase]
  | cons e rest ih =>
    by_cases h : e.1 = k
    · simp only [alErase, if_pos h]
      exact (List.sublist_cons_self e rest)
    · simp only [alErase, if_neg h]
      exact List.Sublist.cons₂ e ih

theorem alErase_perm_cons {β : Type} (k : Nat) (v : β) :
    ∀ l : List (Nat × β), alLookup k l = some v →
      l.Perm ((k, v) :: alErase k l) := by
  intro l
  induction l with
  | nil => intro h; simp [alLookup] at h
  | cons e rest ih =>
    obtain ⟨e1, e2⟩ := e
    intro h
    by_cases he : e1 = k
    · subst he
      simp only [alLookup, if_pos rfl] at h
      injection h with hv
      subst hv
      simp only [alErase, if_pos rfl]
      exact List.Perm.refl _
    · simp only [alLookup, if_neg he] at h
      simp only [alErase, if_neg he]
      exact (List.Perm.cons (e1, e2) (ih h)).trans
        (List.Perm.swap (k, v) (e1, e2) _)

theorem offB_run (b i : Nat) (hb : b < 65536) (hi : i < 65536) :
    offB b ((b + i) % 65536) = i := by
  unfold offB
  omega

theorem before_off (b i j : Nat) (hb : b < 65536) (hi : i < 32768)
    (hj : j < 32768) :
    sequence_before ((b + i) % 65536) ((b + j) % 65536) = true ↔ i < j := by
  unfold sequence_before
  simp only [Bool.and_eq_true, decide_eq_true_eq]
  omega

theorem JitterBuffer.insert_step (jb : JitterBuffer) (p : RTPPacket)
    (hlen : jb.packets.length < jb.capacity)
    (hmem : alContains p.sequence_number jb.packets = false) :
    jb.insert p = .ok { jb with
      packets := jb.packets ++ [(p.sequence_number, p)],
      next_expected_seq :=
        match jb.next_expected_seq with
        | none => some p.sequence_number
        | some expected =>
          if sequence_before p.sequence_number expected then
            some p.sequence_number
          else some expected } := by
  unfold JitterBuffer.insert
  rw [if_neg (by rintro ⟨h1, _⟩; omega)]
  rw [if_neg (by simp [hmem])]

theorem JitterBuffer.get_next_step (jb : JitterBuffer) (s0 : Nat)
    (p : RTPPacket) (hn : jb.next_expected_seq = some s0)
    (hl : alLookup s0 jb.packets = some p) :
    jb.get_next = (some p,
      { jb with packets := alErase s0 jb.packets,
                next_expected_seq := some ((s0 + 1) % 65536) }) := by
  unfold JitterBuffer.get_next
  simp only [hn, hl]

theorem insertAllJB_run (b k cap : Nat) (hb : b < 65536) (hk : k ≤ 32768) :
    ∀ (l prev : List RTPPacket) (jb : JitterBuffer),
      jb.capacity = cap →
      jb.packets = prev.map (fun p => (p.sequence_number, p)) →
      ((prev = [] ∧ jb.next_expected_seq = none) ∨
        (∃ p0 ∈ prev, jb.next_expected_seq = some p0.sequence_number ∧
          ∀ q ∈ prev,
            offB b p0.sequence_number ≤ offB b q.sequence_number)) →
      (∀ p ∈ prev ++ l, ∃ i, i < k ∧ p.sequence_number = (b + i) % 65536) →
      ((prev ++ l).map RTPPacket.sequence_number).Nodup →
      (prev ++ l).length ≤ cap →
      ∃ jb2, insertAllJB jb l = .ok jb2 ∧
        jb2.capacity = cap ∧
        jb2.packets = (prev ++ l).map (fun p => (p.sequence_number, p)) ∧
        ((prev ++ l = [] ∧ jb2.next_expected_seq = none) ∨
          (∃ p0 ∈ prev ++ l,
            jb2.next_expected_seq = some p0.sequence_number ∧
            ∀ q ∈ prev ++ l,
              offB b p0.sequence_number ≤ offB b q.sequence_number)) := by
  intro l
  induction l with
  | nil =>
    intro prev jb h1 h2 h3 _ _ _
    exact ⟨jb, rfl, h1, by simpa using h2, by simpa using h3⟩
  | cons p rest ih =>
    intro prev jb hcap hpk hnext hrun hnd hlen
    have hkeys : jb.packets.map Prod.fst =
        prev.map RTPPacket.sequence_number := by
      rw [hpk, List.map_map]
      rfl
    have hsplitmap : (prev ++ p :: rest).map RTPPacket.sequence_number =
        prev.map RTPPacket.sequence_number ++
          p.sequence_number :: rest.map RTPPacket.sequence_number := by
      simp
    have hnotmem : p.sequence_number ∉
        prev.map RTPPacket.sequence_number := by
      rw [hsplitmap] at hnd
      have hdisj := (List.nodup_append.mp hnd).2.2
      intro hmem
      exact hdisj hmem (by simp)
    have hmem_false : alContains p.sequence_number jb.packets = false := by
      have : alLookup p.sequence_number jb.packets = none := by
        rw [alLookup_none_iff, hkeys]
        exact hnotmem
      simp [alContains, this]
    have hlen_lt : jb.packets.length < jb.capacity := by
      rw [hpk, hcap]
      have : (prev ++ p :: rest).length ≤ cap := hlen
      simp only [List.length_append, List.length_cons] at this
      simp only [List.length_map]
      omega
    have hstep := jb.insert_step p hlen_lt hmem_false
    have hassoc : (prev ++ [p]) ++ rest = prev ++ p :: rest := by simp
    have hnext2 : ((prev ++ [p] : List RTPPacket) = [] ∧
        (match jb.next_expected_seq with
         | none => some p.sequence_number
         | some expected =>
           if sequence_before p.sequence_number expected then
             some p.sequence_number
           else some expected) = none) ∨
        (∃ p0 ∈ prev ++ [p],
          (match jb.next_expected_seq with
           | none => some p.sequence_number
           | some expected =>
             if sequence_before p.sequence_number expected then
               some p.sequence_number
             else some expected) = some p0.sequence_number ∧
          ∀ q ∈ prev ++ [p],
            offB b p0.sequence_number ≤ offB b q.sequence_number) := by
      rcases hnext with ⟨hprev0, hnone⟩ | ⟨p0, hp0mem, hp0eq, hp0min⟩
      · subst hprev0
        rw [hnone]
        refine Or.inr ⟨p, by simp, rfl, ?_⟩
        intro q hq
        simp at hq
        rw [hq]
      · simp only [hp0eq]
        obtain ⟨i, hi, hpi⟩ := hrun p (by simp)
        obtain ⟨m, hm, hp0i⟩ :=
          hrun p0 (List.mem_append_left _ hp0mem)
        have hoffp : offB b p.sequence_number = i := by
          rw [hpi]; exact offB_run b i hb (by omega)
        have hoffp0 : offB b p0.sequence_number = m := by
          rw [hp0i]; exact offB_run b m hb (by omega)
        have hbefore : sequence_before p.sequence_number
            p0.sequence_number = true ↔ i < m := by
          rw [hpi, hp0i]
          exact before_off b i m hb (by omega) (by omega)
        by_cases hlt : i < m
        · rw [if_pos (hbefore.mpr hlt)]
          refine Or.inr ⟨p, by simp, rfl, ?_⟩
          intro q hq
          rcases List.mem_append.mp hq with hq1 | hq2
          · have := hp0min q hq1
            rw [hoffp]
            omega
          · simp at hq2
            rw [hq2]
        · have : ¬ sequence_before p.sequence_number
              p0.sequence_number = true := fun hc => hlt (hbefore.mp hc)
          rw [if_neg this]
          refine Or.inr ⟨p0, List.mem_append_left _ hp0mem, rfl, ?_⟩
          intro q hq
          rcases List.mem_append.mp hq with hq1 | hq2
          · exact hp0min q hq1
          · simp at hq2
            rw [hq2, hoffp, hoffp0]
            omega
    obtain ⟨jb3, hrunEq, hcap3, hpk3, hnext3⟩ := ih (prev ++ [p])
      { jb with
        packets := jb.packets ++ [(p.sequence_number, p)],
        next_expected_seq :=
          match jb.next_expected_seq with
          | none => some p.sequence_number
          | some expected =>
            if sequence_before p.sequence_number expected then
              some p.sequence_number
            else some expected }
      hcap (by rw [hpk]; simp) hnext2
      (by rw [hassoc]; exact hrun)
      (by rw [hassoc]; exact hnd)
      (by rw [hassoc]; exact hlen)
    refine ⟨jb3, ?_, hcap3, by rwa [hassoc] at hpk3,
      by rwa [hassoc] at hnext3⟩
    show (match jb.insert p with
      | .ok jb2 => insertAllJB jb2 rest
      | .error e => .error e) = .ok jb3
    rw [hstep]
    exact hrunEq

theorem seg_succ (b j n : Nat) :
    (List.range (n + 1)).map (fun i => (b + (j + i)) % 65536) =
      (b + j) % 65536 ::
        (List.range n).map (fun i => (b + ((j + 1) + i)) % 65536) := by
  rw [List.range_succ_eq_map, List.map_cons, List.map_map]
  refine List.cons_eq_cons.mpr ⟨by simp, ?_⟩
  refine List.map_congr_left fun i _ => ?_
  simp only [Function.comp_apply]
  congr 1
  omega

theorem drainJB_run (b : Nat) (hb : b < 65536) :
    ∀ (m j : Nat) (jb : JitterBuffer),
      (∀ e ∈ jb.packets, e.1 = e.2.sequence_number) →
      (jb.packets.map Prod.fst).Nodup →
      (jb.packets.map Prod.fst).Perm
        ((List.range m).map (fun i => (b + (j + i)) % 65536)) →
      jb.next_expected_seq = some ((b + j) % 65536) →
      (drainJB jb m).map RTPPacket.sequence_number =
        (List.range m).map (fun i => (b + (j + i)) % 65536) ∧
      (drainJB jb m).Perm (jb.packets.map Prod.snd) := by
  intro m
  induction m with
  | zero =>
    intro j jb _ _ hperm _
    have hkeys : jb.packets.map Prod.fst = [] :=
      List.Perm.eq_nil (by simpa using hperm)
    have hpk : jb.packets = [] := by
      cases hp : jb.packets with
      | nil => rfl
      | cons e r => rw [hp] at hkeys; simp at hkeys
    rw [hpk]
    simp [drainJB]
  | succ n ihm =>
    intro j jb hcoh hnd hperm hnext
    rw [seg_succ] at hperm
    have hkeymem : (b + j) % 65536 ∈ jb.packets.map Prod.fst :=
      hperm.mem_iff.mpr (by simp)
    obtain ⟨p0, hl⟩ := alLookup_of_mem_keys _ _ hkeymem
    have hp0mem : ((b + j) % 65536, p0) ∈ jb.packets :=
      alLookup_mem _ _ _ hl
    have hp0seq : p0.sequence_number = (b + j) % 65536 :=
      (hcoh _ hp0mem).symm
    have hstep := jb.get_next_step ((b + j) % 65536) p0 hnext hl
    have hnext2 : (((b + j) % 65536) + 1) % 65536 =
        (b + (j + 1)) % 65536 := by
      rw [Nat.mod_add_mod]
      omega
    have herasekeys : (alErase ((b + j) % 65536) jb.packets).map Prod.fst =
        (jb.packets.map Prod.fst).erase ((b + j) % 65536) :=
      alErase_map_fst _ _
    have hperm2 : ((alErase ((b + j) % 65536) jb.packets).map
        Prod.fst).Perm
        ((List.range n).map (fun i => (b + ((j + 1) + i)) % 65536)) := by
      rw [herasekeys]
      have := hperm.erase ((b + j) % 65536)
      rwa [List.erase_cons_head] at this
    obtain ⟨ih1, ih2⟩ := ihm (j + 1)
      { jb with packets := alErase ((b + j) % 65536) jb.packets,
                next_expected_seq :=
                  some ((((b + j) % 65536) + 1) % 65536) }
      (fun e he => hcoh e ((alErase_sublist _ _).subset he))
      (by rw [herasekeys] at *; exact hnd.erase _)
      hperm2
      (by rw [hnext2])
    constructor
    · show (drainJB jb (n + 1)).map RTPPacket.sequence_number = _
      rw [seg_succ]
      unfold drainJB
      rw [hstep]
      simp only [List.map_cons]
      rw [hp0seq, ih1]
    · show (drainJB jb (n + 1)).Perm (jb.packets.map Prod.snd)
      unfold drainJB
      rw [hstep]
      have hpermpk := (alErase_perm_cons ((b + j) % 65536) p0
        jb.packets hl).map Prod.snd
      refine List.Perm.trans ?_ hpermpk.symm
      exact List.Perm.cons p0 ih2

/-- C3 counterexample: the packets with sequences 0 and 2 — distinct
sequence numbers lying within a window of three consecutive values — are
inserted into a fresh capacity-10 jitter buffer, yet ten repeated
`get_next()` calls return only the packet with sequence 0: the gap at
sequence 1 blocks delivery, so the packets are not all returned. -/
theorem c3_gap_counterexample :
    gapBuffer.map
      (fun jb => (drainJB jb 10).map RTPPacket.sequence_number) =
        .ok [0] ∧
    ([0] : List Nat) ≠ [0, 2] :=
  ⟨rfl, by decide⟩

/-- C3 as amended: for every set of packets whose distinct sequence numbers
form a modularly contiguous run `b, b+1, …, b+k−1 (mod 2^16)` of length
`k ≤ 2^15`, inserted in any order into a fresh jitter buffer of capacity at
least `k`, `k` calls of `get_next()` return exactly those packets in
modular sequence order, including across the 65535-to-0 wraparound. -/
theorem c3_jitter_ordered_delivery (b k cap : Nat) (ps : List RTPPacket)
    (hb : b < 65536) (hk : k ≤ 32768) (hcap : k ≤ cap)
    (hperm : (ps.map RTPPacket.sequence_number).Perm
      ((List.range k).map (fun i => (b + i) % 65536))) :
    ∃ jb, insertAllJB (JitterBuffer.new cap) ps = .ok jb ∧
      (drainJB jb k).map RTPPacket.sequence_number =
        (List.range k).map (fun i => (b + i) % 65536) ∧
      (drainJB jb k).Perm ps := by
  have hlen : ps.length = k := by
    have := hperm.length_eq
    simpa using this
  have hrun_nodup : ((List.range k).map
      (fun i => (b + i) % 65536)).Nodup := by
    refine List.Nodup.map_on ?_ (List.nodup_range k)
    intro i hi j hj hij
    exact add_mod_inj 65536 b i j
      (by have := List.mem_range.mp hi; omega)
      (by have := List.mem_range.mp hj; omega) hij
  have hps_nodup : (ps.map RTPPacket.sequence_number).Nodup :=
    (hperm.nodup_iff).mpr hrun_nodup
  have hrun_mem : ∀ p ∈ ps, ∃ i, i < k ∧
      p.sequence_number = (b + i) % 65536 := by
    intro p hp
    have : p.sequence_number ∈
        (List.range k).map (fun i => (b + i) % 65536) :=
      hperm.subset (List.mem_map_of_mem _ hp)
    obtain ⟨i, hi, hie⟩ := List.mem_map.mp this
    exact ⟨i, List.mem_range.mp hi, hie.symm⟩
  obtain ⟨jb2, hins, hcap2, hpk2, hinv2⟩ :=
    insertAllJB_run b k cap hb hk ps [] (JitterBuffer.new cap) rfl rfl
      (Or.inl ⟨rfl, rfl⟩) (by simpa using hrun_mem) (by simpa using hps_nodup)
      (by simpa using hlen.le.trans hcap)
  simp only [List.nil_append] at hpk2 hinv2
  have hsnd : jb2.packets.map Prod.snd = ps := by
    rw [hpk2, List.map_map]
    have hcomp : (Prod.snd ∘ fun p : RTPPacket =>
        (p.sequence_number, p)) = id := rfl
    rw [hcomp, List.map_id]
  have hcoh : ∀ e ∈ jb2.packets, e.1 = e.2.sequence_number := by
    intro e he
    rw [hpk2] at he
    obtain ⟨p, _, rfl⟩ := List.mem_map.mp he
    rfl
  have hkeys : jb2.packets.map Prod.fst = ps.map RTPPacket.sequence_number := by
    rw [hpk2, List.map_map]
    rfl
  match k, hlen with
  | 0, hlen =>
    have hps0 : ps = [] := List.length_eq_zero.mp hlen
    subst hps0
    refine ⟨jb2, hins, ?_, ?_⟩
    · simp [drainJB]
    · simp [drainJB, hsnd]
  | m + 1, hlen =>
    have hps_ne : ps ≠ [] := by
      intro h
      rw [h] at hlen
      simp at hlen
    rcases hinv2 with ⟨hps0, _⟩ | ⟨p0, hp0mem, hp0eq, hp0min⟩
    · exact absurd hps0 hps_ne
    obtain ⟨i0, hi0, hp0seq⟩ := hrun_mem p0 hp0mem
    have hzero_mem : (b + 0) % 65536 ∈ ps.map RTPPacket.sequence_number := by
      refine hperm.symm.subset ?_
      refine List.mem_map.mpr ⟨0, ?_, rfl⟩
      exact List.mem_range.mpr (by omega)
    obtain ⟨q0, hq0mem, hq0seq⟩ := List.mem_map.mp hzero_mem
    have hoff0 : offB b q0.sequence_number = 0 := by
      rw [hq0seq]
      exact offB_run b 0 hb (by omega)
    have hoffp0 : offB b p0.sequence_number = i0 := by
      rw [hp0seq]
      exact offB_run b i0 hb (by omega)
    have hi00 : i0 = 0 := by
      have := hp0min q0 hq0mem
      omega
    have hnexteq : jb2.next_expected_seq = some ((b + 0) % 65536) := by
      rw [hp0eq, hp0seq, hi00]
    have hperm0 : (jb2.packets.map Prod.fst).Perm
        ((List.range (m + 1)).map (fun i => (b + (0 + i)) % 65536)) := by
      rw [hkeys]
      refine hperm.trans ?_
      refine List.Perm.of_eq ?_
      refine List.map_congr_left fun i _ => ?_
      rw [Nat.zero_add]
    obtain ⟨hd1, hd2⟩ := drainJB_run b hb (m + 1) 0 jb2 hcoh
      (by rw [hkeys]; exact hps_nodup) hperm0 hnexteq
    refine ⟨jb2, hins, ?_, ?_⟩
    · rw [hd1]
      refine List.map_congr_left fun i _ => ?_
      rw [Nat.zero_add]
    · rw [← hsnd]
      exact hd2

theorem c3_jitter_ordered_delivery_witness :
    ∃ jb, insertAllJB (JitterBuffer.new 10) wrapPackets = .ok jb ∧
      (drainJB jb 3).map RTPPacket.sequence_number = [65535, 0, 1] ∧
      (drainJB jb 3).Perm wrapPackets :=
  c3_jitter_ordered_delivery 65535 3 10 wrapPackets (by decide) (by decide)
    (by decide) (by decide)

theorem alInsert_append {β : Type} (k : Nat) (v : β) :
    ∀ l : List (Nat × β), k ∉ l.map Prod.fst →
      alInsert k v l = l ++ [(k, v)] := by
  intro l
  induction l with
  | nil => intro _; rfl
  | cons e rest ih =>
    obtain ⟨e1, e2⟩ := e
    intro h
    rw [List.map_cons, List.mem_cons] at h
    push_neg at h
    simp only [alInsert]
    rw [if_neg (fun hc => h.1 hc.symm), ih h.2]
    rfl

theorem alInsert_map_fst_mem {β : Type} (k : Nat) (v : β) :
    ∀ l : List (Nat × β), k ∈ l.map Prod.fst →
      (alInsert k v l).map Prod.fst = l.map Prod.fst := by
  intro l
  induction l with
  | nil => intro h; simp at h
  | cons e rest ih =>
    obtain ⟨e1, e2⟩ := e
    intro h
    rw [List.map_cons, List.mem_cons] at h
    by_cases he : e1 = k
    · subst he
      simp [alInsert]
    · have hmem : k ∈ rest.map Prod.fst := by
        rcases h with h1 | h2
        · exact absurd h1.symm he
        · exact h2
      simp only [alInsert, if_neg he, List.map_cons, ih hmem]

theorem alLookup_alInsert_self {β : Type} (k : Nat) (v : β) :
    ∀ l : List (Nat × β), alLookup k (alInsert k v l) = some v := by
  intro l
  induction l with
  | nil => simp [alInsert, alLookup]
  | cons e rest ih =>
    obtain ⟨e1, e2⟩ := e
    by_cases he : e1 = k
    · simp [alInsert, he, alLookup]
    · simp only [alInsert, if_neg he, alLookup, ih]

theorem alLookup_alInsert_ne {β : Type} (k k2 : Nat) (v : β)
    (hne : k2 ≠ k) :
    ∀ l : List (Nat × β),
      alLookup k2 (alInsert k v l) = alLookup k2 l := by
  intro l
  induction l with
  | nil =>
    simp only [alInsert, alLookup]
    rw [if_neg (fun h => hne h.symm)]
  | cons e rest ih =>
    obtain ⟨e1, e2⟩ := e
    by_cases he : e1 = k
    · subst he
      simp only [alInsert, if_pos rfl, alLookup]
      rw [if_neg (fun h => hne h.symm), if_neg (fun h => hne h.symm)]
    · simp only [alInsert, if_neg he, alLookup, ih]

theorem alLookup_alErase_self {β : Type} (k : Nat) :
    ∀ l : List (Nat × β), (l.map Prod.fst).Nodup →
      alLookup k (alErase k l) = none := by
  intro l
  induction l with
  | nil => intro _; rfl
  | cons e rest ih =>
    obtain ⟨e1, e2⟩ := e
    intro hnd
    rw [List.map_cons, List.nodup_cons] at hnd
    by_cases he : e1 = k
    · simp only [alErase, if_pos he]
      rw [alLookup_none_iff, ← he]
      exact hnd.1
    · simp only [alErase, if_neg he, alLookup, if_neg he]
      exact ih hnd.2

theorem alLookup_eq_of_mem_nodup {β : Type} (k : Nat) (v : β) :
    ∀ l : List (Nat × β), (l.map Prod.fst).Nodup → (k, v) ∈ l →
      alLookup k l = some v := by
  intro l
  induction l with
  | nil => intro _ h; simp at h
  | cons e rest ih =>
    obtain ⟨e1, e2⟩ := e
    intro hnd hmem
    rw [List.map_cons, List.nodup_cons] at hnd
    rcases List.mem_cons.mp hmem with h1 | h2
    · rw [← h1]
      simp [alLookup]
    · have hne : e1 ≠ k := by
        intro hc
        exact hnd.1 (List.mem_map.mpr ⟨(k, v), h2, hc.symm⟩)
      simp only [alLookup, if_neg hne]
      exact ih hnd.2 h2

theorem minByAccess_eq_none :
    ∀ l : List (Nat × CacheEntry), minByAccess l = none → l = [] := by
  intro l
  cases l with
  | nil => intro _; rfl
  | cons e rest =>
    intro h
    simp only [minByAccess] at h
    rcases hr : minByAccess rest with _ | m2
    · simp only [hr] at h
      exact absurd h (by simp)
    · simp only [hr] at h
      by_cases hle : e.2.access_count ≤ m2.2.access_count
      · rw [if_pos hle] at h
        exact absurd h (by simp)
      · rw [if_neg hle] at h
        exact absurd h (by simp)

theorem minByAccess_mem :
    ∀ (l : List (Nat × CacheEntry)) (m : Nat × CacheEntry),
      minByAccess l = some m → m ∈ l := by
  intro l
  induction l with
  | nil => intro m h; simp [minByAccess] at h
  | cons e rest ih =>
    intro m h
    simp only [minByAccess] at h
    rcases hr : minByAccess rest with _ | m2
    · simp only [hr] at h
      injection h with h
      simp [← h]
    · simp only [hr] at h
      by_cases hle : e.2.access_count ≤ m2.2.access_count
      · rw [if_pos hle] at h
        injection h with h
        simp [← h]
      · rw [if_neg hle] at h
        injection h with h
        subst h
        exact List.mem_cons_of_mem _ (ih m2 hr)

theorem minByAccess_min :
    ∀ (l : List (Nat × CacheEntry)) (m : Nat × CacheEntry),
      minByAccess l = some m →
      ∀ e ∈ l, m.2.access_count ≤ e.2.access_count := by
  intro l
  induction l with
  | nil => intro m h; simp [minByAccess] at h
  | cons e rest ih =>
    intro m h q hq
    simp only [minByAccess] at h
    rcases hr : minByAccess rest with _ | m2
    · simp only [hr] at h
      injection h with h
      subst h
      rcases List.mem_cons.mp hq with h1 | h2
      · rw [h1]
      · rw [minByAccess_eq_none rest hr] at h2
        simp at h2
    · simp only [hr] at h
      by_cases hle : e.2.access_count ≤ m2.2.access_count
      · rw [if_pos hle] at h
        injection h with h
        subst h
        rcases List.mem_cons.mp hq with h1 | h2
        · rw [h1]
        · exact le_trans hle (ih m2 hr q h2)
      · rw [if_neg hle] at h
        injection h with h
        subst h
        rcases List.mem_cons.mp hq with h1 | h2
        · rw [h1]; omega
        · exact ih m2 hr q h2

theorem minByAccess_some :
    ∀ l : List (Nat × CacheEntry), l ≠ [] →
      ∃ m, minByAccess l = some m := by
  intro l
  cases hr : minByAccess l with
  | none => intro hne; exact absurd (minByAccess_eq_none l hr) hne
  | some m => intro _; exact ⟨m, rfl⟩

theorem fillEntries_keys (fs : List VideoFrame) :
    ∀ c0, (fillEntries c0 fs).map Prod.fst =
      fs.map (fun f => f.timestamp) := by
  induction fs with
  | nil => intro c0; rfl
  | cons f rest ih =>
    intro c0
    simp only [fillEntries, List.map_cons, ih]

theorem fillEntries_counts (fs : List VideoFrame) :
    ∀ c0, ∀ e ∈ fillEntries c0 fs,
      c0 < e.2.access_count ∧ e.2.access_count ≤ c0 + fs.length := by
  induction fs with
  | nil => intro c0 e he; simp [fillEntries] at he
  | cons f rest ih =>
    intro c0 e he
    simp only [fillEntries, List.mem_cons] at he
    rcases he with rfl | he
    · simp only [List.length_cons]
      omega
    · have := ih (c0 + 1) e he
      simp only [List.length_cons]
      omega

theorem insertFrames_spec (maxf : Nat) (hmax : maxf ≠ 0) :
    ∀ (fs : List VideoFrame) (c : FrameCache),
      c.max_frames = maxf →
      (fs.map (fun f => f.timestamp)).Nodup →
      (∀ f ∈ fs, f.timestamp ∉ c.frames.map Prod.fst) →
      c.frames.length + fs.length ≤ maxf →
      insertFrames c fs =
        { frames := c.frames ++ fillEntries c.access_counter fs,
          max_frames := maxf,
          access_counter := c.access_counter + fs.length } := by
  intro fs
  induction fs with
  | nil =>
    intro c hc _ _ _
    simp only [insertFrames, fillEntries, List.append_nil, Nat.add_zero]
    cases c
    simp_all
  | cons f rest ih =>
    intro c hc hnd hdisj hlen
    rw [List.map_cons, List.nodup_cons] at hnd
    have hts_not : f.timestamp ∉ c.frames.map Prod.fst :=
      hdisj f (by simp)
    have hcontains : alContains f.timestamp c.frames = false := by
      have : alLookup f.timestamp c.frames = none := by
        rw [alLookup_none_iff]
        exact hts_not
      simp [alContains, this]
    have hno_evict : ¬ (c.frames.length ≥ c.max_frames ∧
        alContains f.timestamp c.frames = false) := by
      rintro ⟨h1, _⟩
      rw [hc] at h1
      simp only [List.length_cons] at hlen
      omega
    have hstep : c.insert f = .ok
        { frames := alInsert f.timestamp ⟨f, c.access_counter + 1⟩ c.frames,
          max_frames := c.max_frames,
          access_counter := c.access_counter + 1 } := by
      unfold FrameCache.insert
      rw [if_neg (by rw [hc]; exact hmax), if_neg hno_evict]
    have happ : alInsert f.timestamp
        (⟨f, c.access_counter + 1⟩ : CacheEntry) c.frames =
        c.frames ++ [(f.timestamp, ⟨f, c.access_counter + 1⟩)] :=
      alInsert_append _ _ _ hts_not
    rw [happ] at hstep
    rw [insertFrames]
    simp only [hstep]
    rw [ih { frames := c.frames ++
                 [(f.timestamp, ⟨f, c.access_counter + 1⟩)],
             max_frames := c.max_frames,
             access_counter := c.access_counter + 1 }
      hc hnd.2
      (by
        intro f2 hf2
        simp only [List.map_append, List.map_cons, List.map_nil,
          List.mem_append, List.mem_cons]
        rintro (hin | hin)
        · exact hdisj f2 (List.mem_cons_of_mem _ hf2) hin
        · rcases hin with hin | hin
          · exact hnd.1 (hin ▸ List.mem_map_of_mem _ hf2)
          · simp at hin)
      (by
        simp only [List.length_cons] at hlen
        simp
        omega)]
    have hfe : (c.frames ++
        [(f.timestamp, (⟨f, c.access_counter + 1⟩ : CacheEntry))]) ++
          fillEntries (c.access_counter + 1) rest =
        c.frames ++ fillEntries c.access_counter (f :: rest) := by
      rw [List.append_assoc]
      rfl
    rw [hfe]
    congr 1
    show c.access_counter + 1 + rest.length = c.access_counter + (f :: rest).length
    simp only [List.length_cons]
    omega

theorem getFrames_spec :
    ∀ (S : List Nat) (c : FrameCache),
      (∀ t ∈ S, t ∈ c.frames.map Prod.fst) →
      (getFrames c S).frames.map Prod.fst = c.frames.map Prod.fst ∧
      c.access_counter ≤ (getFrames c S).access_counter ∧
      (∀ t, t ∉ S →
        alLookup t (getFrames c S).frames = alLookup t c.frames) ∧
      (∀ t ∈ S, ∃ e2, alLookup t (getFrames c S).frames = some e2 ∧
        c.access_counter < e2.access_count) := by
  intro S
  induction S with
  | nil =>
    intro c _
    exact ⟨rfl, le_rfl, fun _ _ => rfl, fun t ht => absurd ht (by simp)⟩
  | cons t1 rest ih =>
    intro c hsub
    have ht1 : t1 ∈ c.frames.map Prod.fst := hsub t1 (by simp)
    obtain ⟨e1, he1⟩ := alLookup_of_mem_keys t1 c.frames ht1
    have hget : c.get t1 = (some e1.frame,
        { frames := alInsert t1 ⟨e1.frame, c.access_counter + 1⟩ c.frames,
          max_frames := c.max_frames,
          access_counter := c.access_counter + 1 }) := by
      unfold FrameCache.get
      simp only [he1]
    have hgf : getFrames c (t1 :: rest) = getFrames
        { frames := alInsert t1 ⟨e1.frame, c.access_counter + 1⟩ c.frames,
          max_frames := c.max_frames,
          access_counter := c.access_counter + 1 } rest := by
      rw [getFrames, hget]
    have hkeys2 : (alInsert t1
        (⟨e1.frame, c.access_counter + 1⟩ : CacheEntry)
        c.frames).map Prod.fst = c.frames.map Prod.fst :=
      alInsert_map_fst_mem t1 _ c.frames ht1
    obtain ⟨ih1, ih2, ih3, ih4⟩ := ih
      { frames := alInsert t1 ⟨e1.frame, c.access_counter + 1⟩ c.frames,
        max_frames := c.max_frames,
        access_counter := c.access_counter + 1 }
      (by
        intro t ht
        show t ∈ (alInsert t1 _ c.frames).map Prod.fst
        rw [hkeys2]
        exact hsub t (List.mem_cons_of_mem _ ht))
    refine ⟨?_, ?_, ?_, ?_⟩
    · rw [hgf, ih1]
      exact hkeys2
    · rw [hgf]
      exact le_trans (Nat.le_succ _) ih2
    · intro t ht
      rw [List.mem_cons] at ht
      push_neg at ht
      rw [hgf, ih3 t ht.2]
      exact alLookup_alInsert_ne t1 t _ ht.1 c.frames
    · intro t ht
      rw [List.mem_cons] at ht
      rcases ht with rfl | hrest
      · by_cases hmem : t ∈ rest
        · obtain ⟨e2, he2, hlt⟩ := ih4 t hmem
          refine ⟨e2, by rw [hgf]; exact he2, ?_⟩
          exact lt_trans (Nat.lt_succ_self _) hlt
        · refine ⟨⟨e1.frame, c.access_counter + 1⟩, ?_, Nat.lt_succ_self _⟩
          rw [hgf, ih3 t hmem]
          exact alLookup_alInsert_self t _ c.frames
      · obtain ⟨e2, he2, hlt⟩ := ih4 t hrest
        refine ⟨e2, by rw [hgf]; exact he2, ?_⟩
        exact lt_trans (Nat.lt_succ_self _) hlt

theorem getFrames_max :
    ∀ (S : List Nat) (c : FrameCache),
      (getFrames c S).max_frames = c.max_frames := by
  intro S
  induction S with
  | nil => intro c; rfl
  | cons t rest ih =>
    intro c
    rw [getFrames, ih]
    unfold FrameCache.get
    cases alLookup t c.frames <;> rfl


/-- C9: `FrameCache::insert` with `max_frames == 0` fails with
`OutOfMemory`; when the cache is at capacity and the timestamp is new, the
entry with the smallest access counter is evicted before inserting; every
successful `get` bumps its entry's counter to the next value of the
monotonic counter; hence after filling the cache to capacity and accessing
a subset `S` of keys, the next insert of a new timestamp evicts a key
outside `S` whenever one exists. -/
theorem c9_frame_cache_lru :
    (∀ (c : FrameCache) (f : VideoFrame), c.max_frames = 0 →
      c.insert f = .error BufferError.OutOfMemory) ∧
    (∀ (c : FrameCache) (f : VideoFrame), c.max_frames ≠ 0 →
      c.frames.length ≥ c.max_frames →
      alContains f.timestamp c.frames = false →
      ∃ lru, minByAccess c.frames = some lru ∧
        (∀ e ∈ c.frames, lru.2.access_count ≤ e.2.access_count) ∧
        c.insert f = .ok
          { frames := alInsert f.timestamp ⟨f, c.access_counter + 1⟩
              (alErase lru.1 c.frames),
            max_frames := c.max_frames,
            access_counter := c.access_counter + 1 }) ∧
    (∀ (c : FrameCache) (t : Nat) (e : CacheEntry),
      alLookup t c.frames = some e →
      c.get t = (some e.frame,
        { frames := alInsert t ⟨e.frame, c.access_counter + 1⟩ c.frames,
          max_frames := c.max_frames,
          access_counter := c.access_counter + 1 })) ∧
    (∀ (k : Nat) (fs : List VideoFrame) (S : List Nat) (fnew : VideoFrame),
      k ≠ 0 → fs.length = k →
      (fs.map (fun f => f.timestamp)).Nodup →
      (∀ t ∈ S, t ∈ fs.map (fun f => f.timestamp)) →
      fnew.timestamp ∉ fs.map (fun f => f.timestamp) →
      (∃ t0 ∈ fs.map (fun f => f.timestamp), t0 ∉ S) →
      insertFrames (FrameCache.new k) fs = fillCache k fs ∧
      ∃ lru,
        minByAccess (getFrames (fillCache k fs) S).frames = some lru ∧
        lru.1 ∉ S ∧
        (getFrames (fillCache k fs) S).insert fnew =
          .ok { frames := alInsert fnew.timestamp
                  ⟨fnew, (getFrames (fillCache k fs) S).access_counter + 1⟩
                  (alErase lru.1 (getFrames (fillCache k fs) S).frames),
                max_frames := k,
                access_counter :=
                  (getFrames (fillCache k fs) S).access_counter + 1 }) := by
  have part1 : ∀ (c : FrameCache) (f : VideoFrame), c.max_frames = 0 →
      c.insert f = .error BufferError.OutOfMemory := by
    intro c f h0
    unfold FrameCache.insert
    rw [if_pos h0]
  have part2 : ∀ (c : FrameCache) (f : VideoFrame), c.max_frames ≠ 0 →
      c.frames.length ≥ c.max_frames →
      alContains f.timestamp c.frames = false →
      ∃ lru, minByAccess c.frames = some lru ∧
        (∀ e ∈ c.frames, lru.2.access_count ≤ e.2.access_count) ∧
        c.insert f = .ok
          { frames := alInsert f.timestamp ⟨f, c.access_counter + 1⟩
              (alErase lru.1 c.frames),
            max_frames := c.max_frames,
            access_counter := c.access_counter + 1 } := by
    intro c f hmax hlen hcont
    have hne : c.frames ≠ [] := by
      intro hnil
      rw [hnil] at hlen
      simp at hlen
      omega
    obtain ⟨lru, hlru⟩ := minByAccess_some c.frames hne
    refine ⟨lru, hlru, minByAccess_min c.frames lru hlru, ?_⟩
    unfold FrameCache.insert
    rw [if_neg hmax, if_pos ⟨hlen, hcont⟩]
    simp only [hlru]
  have part3 : ∀ (c : FrameCache) (t : Nat) (e : CacheEntry),
      alLookup t c.frames = some e →
      c.get t = (some e.frame,
        { frames := alInsert t ⟨e.frame, c.access_counter + 1⟩ c.frames,
          max_frames := c.max_frames,
          access_counter := c.access_counter + 1 }) := by
    intro c t e he
    unfold FrameCache.get
    simp only [he]
  refine ⟨part1, part2, part3, ?_⟩
  rintro k fs S fnew hk hlen hnodup hsub hnew ⟨t0, ht0k, ht0S⟩
  have hc1 : insertFrames (FrameCache.new k) fs = fillCache k fs := by
    rw [insertFrames_spec k hk fs (FrameCache.new k) rfl hnodup
      (by intro f hf; simp [FrameCache.new]) (by simp [FrameCache.new]; omega)]
    simp [FrameCache.new, fillCache]
  have keys1 : (fillCache k fs).frames.map Prod.fst =
      fs.map (fun f => f.timestamp) := fillEntries_keys fs 0
  obtain ⟨hkeys, hcnt, hun, hacc⟩ := getFrames_spec S (fillCache k fs)
    (by
      intro t ht
      rw [keys1]
      exact hsub t ht)
  refine ⟨hc1, ?_⟩
  have hkeys2 : (getFrames (fillCache k fs) S).frames.map Prod.fst =
      fs.map (fun f => f.timestamp) := by
    rw [hkeys]
    exact keys1
  have hlen2 : (getFrames (fillCache k fs) S).frames.length = k := by
    have := congrArg List.length hkeys2
    simp only [List.length_map] at this
    rw [this, hlen]
  have hmax2 : (getFrames (fillCache k fs) S).max_frames = k :=
    getFrames_max S (fillCache k fs)
  have hcont2 : alContains fnew.timestamp
      (getFrames (fillCache k fs) S).frames = false := by
    have : alLookup fnew.timestamp
        (getFrames (fillCache k fs) S).frames = none := by
      rw [alLookup_none_iff, hkeys2]
      exact hnew
    simp [alContains, this]
  obtain ⟨lru, hlru, hmin, hins⟩ := part2 (getFrames (fillCache k fs) S)
    fnew (by rw [hmax2]; exact hk) (by rw [hmax2, hlen2]) hcont2
  rw [hmax2] at hins
  refine ⟨lru, hlru, ?_, hins⟩
  intro hlS
  have hlmem : lru ∈ (getFrames (fillCache k fs) S).frames :=
    minByAccess_mem _ lru hlru
  have hnodup2 :
      ((getFrames (fillCache k fs) S).frames.map Prod.fst).Nodup := by
    rw [hkeys2]
    exact hnodup
  have hlook_lru : alLookup lru.1
      (getFrames (fillCache k fs) S).frames = some lru.2 :=
    alLookup_eq_of_mem_nodup lru.1 lru.2 _ hnodup2 hlmem
  obtain ⟨e2, he2, hgt⟩ := hacc lru.1 hlS
  have he2lru : e2 = lru.2 := by
    rw [hlook_lru] at he2
    exact (Option.some.injEq _ _ ▸ he2).symm
  rw [he2lru] at hgt
  have hfc : (fillCache k fs).access_counter = fs.length := rfl
  rw [hfc] at hgt
  have ht0fe : t0 ∈ (fillCache k fs).frames.map Prod.fst := by
    rw [keys1]
    exact ht0k
  obtain ⟨e0, he0⟩ := alLookup_of_mem_keys t0 (fillCache k fs).frames ht0fe
  have he0mem : (t0, e0) ∈ fillEntries 0 fs :=
    alLookup_mem t0 e0 (fillEntries 0 fs) he0
  have he0cnt : e0.access_count ≤ fs.length := by
    have := (fillEntries_counts fs 0 (t0, e0) he0mem).2
    simpa using this
  have he0in : (t0, e0) ∈ (getFrames (fillCache k fs) S).frames := by
    apply alLookup_mem t0 e0
    rw [hun t0 ht0S]
    exact he0
  have := minByAccess_min _ lru hlru (t0, e0) he0in
  simp only at this hgt
  omega

theorem c9_frame_cache_lru_witness :
    ((FrameCache.new 0).insert (wFrame 1) =
      .error BufferError.OutOfMemory) ∧
    (insertFrames (FrameCache.new 2) [wFrame 1, wFrame 2] =
      fillCache 2 [wFrame 1, wFrame 2] ∧
      ∃ lru,
        minByAccess (getFrames (fillCache 2 [wFrame 1, wFrame 2])
          [2]).frames = some lru ∧
        lru.1 ∉ [2] ∧
        (getFrames (fillCache 2 [wFrame 1, wFrame 2]) [2]).insert
            (wFrame 3) =
          .ok { frames := alInsert (wFrame 3).timestamp
                  ⟨wFrame 3, (getFrames (fillCache 2 [wFrame 1, wFrame 2])
                    [2]).access_counter + 1⟩
                  (alErase lru.1 (getFrames (fillCache 2
                    [wFrame 1, wFrame 2]) [2]).frames),
                max_frames := 2,
                access_counter := (getFrames (fillCache 2
                  [wFrame 1, wFrame 2]) [2]).access_counter + 1 }) :=
  ⟨c9_frame_cache_lru.1 (FrameCache.new 0) (wFrame 1) rfl,
   c9_frame_cache_lru.2.2.2 2 [wFrame 1, wFrame 2] [2] (wFrame 3)
     (by decide) (by decide) (by decide) (by decide) (by decide)
     ⟨1, by decide, by decide⟩⟩
